import Mathlib

/-!
# Verification of the Search_Engine repository core

Shallow embedding of the crawler / indexer / query-processor pipeline of the
`priyanshum143/Search_Engine` repository, together with proofs and refutations
of its specification claims.

Strings are modelled as `List Char` (`Str`).  The URL normaliser
(`src/search_engine/utils/string_utils.py::normalize_url`) is built on
Python's `urllib.parse.urlparse` / `urlunparse`; those library functions are
embedded here following CPython's `urllib/parse.py` (scheme splitting, netloc
splitting, fragment/query splitting, params splitting), restricted to the
code paths exercised by ASCII inputs (the IPv6-bracket and non-ASCII NFKC
error checks of CPython are not modelled).
-/

namespace SearchEngine

/-- Python strings are modelled as lists of characters. -/
abbrev Str := List Char

/-- `str.lower()` for the ASCII range (`Char.toLower` lowers exactly A-Z). -/
def lowerStr (s : Str) : Str := s.map Char.toLower

/-- Characters treated as whitespace by Python's `str.strip()` (ASCII range). -/
def isPySpace (c : Char) : Bool :=
  c = ' ' || c = '\t' || c = '\n' || c = '\r' || c = Char.ofNat 11 || c = Char.ofNat 12

/-- Python `str.strip()`: remove leading and trailing whitespace. -/
def pyStrip (s : Str) : Str :=
  ((s.dropWhile isPySpace).reverse.dropWhile isPySpace).reverse

/-- `str.rstrip("/")`: remove all trailing `'/'` characters. -/
def rstripSlash (s : Str) : Str :=
  (s.reverse.dropWhile (· = '/')).reverse

/-- Python `str.find(c)`: index of the first occurrence of `c`. -/
def pyFind (s : Str) (c : Char) : Option Nat := s.findIdx? (· = c)

/-- Python `str.rfind(c)`: index of the last occurrence of `c`. -/
def pyRFind (s : Str) (c : Char) : Option Nat :=
  (s.reverse.findIdx? (· = c)).map (fun i => s.length - 1 - i)

/-- Python `s.split(c, 1)` given that `c` occurs in `s`; otherwise `(s, [])`. -/
def splitAtFirst (s : Str) (c : Char) : Str × Str :=
  match s.findIdx? (· = c) with
  | some i => (s.take i, s.drop (i + 1))
  | none => (s, [])

/-- `urllib.parse.scheme_chars`: characters allowed in a URL scheme. -/
def isSchemeChar (c : Char) : Bool :=
  c.isAlpha || c.isDigit || c = '+' || c = '-' || c = '.'

/-- `urlsplit` removes tab, CR and LF from the URL before splitting. -/
def removeUnsafe (s : Str) : Str :=
  s.filter (fun c => !(c = '\t' || c = '\r' || c = '\n'))

/-- The scheme-splitting step of CPython's `urlsplit`: a scheme is present
when the first `':'` has a positive index, the first character is an ASCII
letter and every character before the `':'` is a scheme character; the scheme
is lowercased as it is split off. -/
def schemeSplit (url : Str) : Option (Str × Str) :=
  match url.findIdx? (· = ':') with
  | some i =>
    if 0 < i ∧ (url.headD ' ').isAlpha ∧ (url.take i).all isSchemeChar then
      some (lowerStr (url.take i), url.drop (i + 1))
    else none
  | none => none

/-- `urllib.parse._splitnetloc(url, 2)`: the netloc runs from index 2 to the
first `'/'`, `'?'` or `'#'`. -/
def splitnetloc (url : Str) : Str × Str :=
  let rest := url.drop 2
  let i := match rest.findIdx? (fun c => c = '/' || c = '?' || c = '#') with
    | some j => j
    | none => rest.length
  (rest.take i, rest.drop i)

/-- Result type of `urllib.parse.urlsplit`. -/
structure SplitResult where
  scheme : Str
  netloc : Str
  path : Str
  query : Str
  fragment : Str
deriving DecidableEq, Repr

/-- `urllib.parse.urlsplit` (CPython, error checks for bracketed hosts and
non-ASCII netlocs omitted). -/
def urlsplit (url0 : Str) : SplitResult :=
  let url := removeUnsafe url0
  let sr := match schemeSplit url with
    | some p => p
    | none => ([], url)
  let scheme := sr.1
  let url1 := sr.2
  let nr := if url1.take 2 = ['/', '/'] then splitnetloc url1 else ([], url1)
  let netloc := nr.1
  let url2 := nr.2
  let fr := if url2.contains '#' then splitAtFirst url2 '#' else (url2, [])
  let url3 := fr.1
  let fragment := fr.2
  let qr := if url3.contains '?' then splitAtFirst url3 '?' else (url3, [])
  ⟨scheme, netloc, qr.1, qr.2, fragment⟩

/-- `urllib.parse._splitparams`: split the params off the last path segment.
Only called when `';'` occurs in the path. -/
def splitparams (url : Str) : Str × Str :=
  if url.contains '/' then
    let r := (pyRFind url '/').getD 0
    match (url.drop r).findIdx? (· = ';') with
    | some j => (url.take (r + j), url.drop (r + j + 1))
    | none => (url, [])
  else
    match url.findIdx? (· = ';') with
    | some i => (url.take i, url.drop (i + 1))
    | none => (url, [])

/-- Result type of `urllib.parse.urlparse`. -/
structure ParseResult where
  scheme : Str
  netloc : Str
  path : Str
  params : Str
  query : Str
  fragment : Str
deriving DecidableEq, Repr

/-- `urllib.parse.urlparse`. -/
def urlparse (url : Str) : ParseResult :=
  let s := urlsplit url
  let pr := if s.path.contains ';' then splitparams s.path else (s.path, [])
  ⟨s.scheme, s.netloc, pr.1, pr.2, s.query, s.fragment⟩

/-- `urllib.parse.urlunsplit`. -/
def urlunsplit (scheme netloc url query fragment : Str) : Str :=
  let url1 :=
    if netloc ≠ [] ∨ (url ≠ [] ∧ url.take 2 = ['/', '/']) then
      ['/', '/'] ++ netloc ++ (if url ≠ [] ∧ url.take 1 ≠ ['/'] then '/' :: url else url)
    else url
  let url2 := if scheme ≠ [] then scheme ++ ':' :: url1 else url1
  let url3 := if query ≠ [] then url2 ++ '?' :: query else url2
  if fragment ≠ [] then url3 ++ '#' :: fragment else url3

/-- `urllib.parse.urlunparse`. -/
def urlunparse (scheme netloc path params query fragment : Str) : Str :=
  let url := if params ≠ [] then path ++ ';' :: params else path
  urlunsplit scheme netloc url query fragment

/-- `string_utils.normalize_url`: parse the stripped URL, lowercase scheme and
netloc, strip trailing slashes from non-root paths, keep params and query,
drop the fragment, and reassemble. -/
def normalize_url (url : Str) : Str :=
  let parsed := urlparse (pyStrip url)
  let scheme := lowerStr parsed.scheme
  let netloc := lowerStr parsed.netloc
  let path := if parsed.path = ['/'] then ['/'] else rstripSlash parsed.path
  urlunparse scheme netloc path parsed.params parsed.query []

example : normalize_url "HTTP://A.COM/x/#frag".toList = "http://a.com/x".toList := by decide
example : normalize_url "http://a.com/".toList = "http://a.com/".toList := by decide

/-! ## Tokeniser and stop words -/

/-- `\w`-free test: is `c` an ASCII alphanumeric character
(the character class of `TOKEN_PATTERN`)? -/
def isAlnum (c : Char) : Bool := c.isAlpha || c.isDigit

/-- Whether the word-boundary `\b` holds between an alphanumeric run and the
following character: it fails exactly when that character is `'_'` (the one
word character outside the `[a-zA-Z0-9]` class). -/
def notUnderscoreHead (s : Str) : Bool :=
  match s with
  | [] => true
  | c :: _ => c ≠ '_'

/-- The matches of `re.findall(TOKEN_PATTERN, s)` where
`TOKEN_PATTERN = \b[a-zA-Z0-9]+\b` (from `utils/variables.py`): maximal
alphanumeric runs whose neighbouring characters are not `'_'` (the only `\w`
character outside the `[a-zA-Z0-9]` class, so the only way `\b` can fail at
a run edge).  Single left-to-right scan: `pu` records whether the previous
character was `'_'`, `cur` is the current run in reverse, `ok` whether the
current run started at a word boundary. -/
def tokenScan (s : Str) (pu : Bool) (cur : Str) (ok : Bool) : List Str :=
  match s with
  | [] => if cur ≠ [] ∧ ok then [cur.reverse] else []
  | c :: cs =>
    if isAlnum c then
      if cur = [] then tokenScan cs pu [c] (!pu)
      else tokenScan cs pu (c :: cur) ok
    else
      (if cur ≠ [] ∧ ok ∧ c ≠ '_' then [cur.reverse] else [])
        ++ tokenScan cs (c = '_') [] true

/-- Modelled from the spec: `tokenize_content_into_list_of_words` is imported
by `indexer.py` and `query_response.py` from `utils/string_utils.py` but is
absent from that file; per §6 of the spec the tokeniser returns the matches
of `TOKEN_PATTERN` (`\b[a-zA-Z0-9]+\b`), each lowercased, in order. -/
def tokenize_content_into_list_of_words (content : Str) : List Str :=
  (tokenScan content false [] true).map lowerStr

/-- `CommonVariables.STOP_WORDS` from `utils/variables.py`. -/
def STOP_WORDS : List Str :=
  ["a", "an", "the", "and", "or", "but",
   "is", "am", "are", "was", "were",
   "have", "has", "had",
   "of", "to", "in", "on", "for", "at", "by"].map String.toList

/-! ## Data model and indexer -/

/-- `models/PageModel.py::PageModel`. -/
structure PageModel where
  doc_id : Str
  url : Str
  final_url : Str
  http_status : Int
  title : Str
  headings : List Str
  content : Str
  links : List Str
deriving DecidableEq, Repr

/-- `models/TokenType.py::TokenType`. -/
inductive TokenType where
  | CONTENT
  | HEADING
  | TITLE
deriving DecidableEq, Repr

/-- `models/TokenType.py::TOKEN_TYPE_WEIGHTS`. -/
def TOKEN_TYPE_WEIGHTS : TokenType → Nat
  | .CONTENT => 1
  | .HEADING => 4
  | .TITLE => 8

/-- Python dicts are modelled as insertion-ordered association lists. -/
abbrev Postings := List (Str × Nat)

/-- `inverted_index : dict[str, dict[str, int]]`. -/
abbrev InvertedIndex := List (Str × Postings)

/-- Dict read: the value bound to `k`, if any. -/
def alGet {β : Type} (l : List (Str × β)) (k : Str) : Option β :=
  match l with
  | [] => none
  | (k', v) :: rest => if k' = k then some v else alGet rest k

/-- `defaultdict(int)` accumulation `d[k] += v`: update the existing entry or
append a fresh one at the end (dicts preserve insertion order). -/
def alAdd (l : List (Str × Nat)) (k : Str) (v : Nat) : List (Str × Nat) :=
  match l with
  | [] => [(k, v)]
  | (k', v') :: rest =>
    if k' = k then (k', v' + v) :: rest else (k', v') :: alAdd rest k v

/-- Dict assignment `d[k] = v`: overwrite in place or append. -/
def alSet {β : Type} (l : List (Str × β)) (k : Str) (v : β) : List (Str × β) :=
  match l with
  | [] => [(k, v)]
  | (k', v') :: rest =>
    if k' = k then (k', v) :: rest else (k', v') :: alSet rest k v

/-- `collections.Counter(tokens)`: frequency map in first-occurrence order. -/
def counter (ts : List Str) : List (Str × Nat) :=
  ts.foldl (fun acc t => alAdd acc t 1) []

/-- One field pass of `Indexer._create_inverted_index_for_page_model`:
`for term, freq in Counter(tokens).items(): if term in STOP_WORDS: continue;
term_scores[term] += freq * weightage`. -/
def addFieldScores (term_scores : List (Str × Nat)) (tokens : List Str) (w : Nat) :
    List (Str × Nat) :=
  (counter tokens).foldl
    (fun acc p => if p.1 ∈ STOP_WORDS then acc else alAdd acc p.1 (p.2 * w)) term_scores

/-- `" ".join(headings)`. -/
def joinSpace : List Str → Str
  | [] => []
  | [s] => s
  | s :: rest => s ++ ' ' :: joinSpace rest

/-- The `term_scores` accumulated by
`Indexer._create_inverted_index_for_page_model` for one page: content tokens
at weight 1, joined-headings tokens at weight 4, title tokens at weight 8,
stop words skipped. -/
def term_scores_for_page (m : PageModel) : List (Str × Nat) :=
  let s1 := addFieldScores [] (tokenize_content_into_list_of_words m.content)
    (TOKEN_TYPE_WEIGHTS .CONTENT)
  let s2 := addFieldScores s1 (tokenize_content_into_list_of_words (joinSpace m.headings))
    (TOKEN_TYPE_WEIGHTS .HEADING)
  addFieldScores s2 (tokenize_content_into_list_of_words m.title)
    (TOKEN_TYPE_WEIGHTS .TITLE)

/-- `self.inverted_index[term][doc_id] += score` (nested defaultdicts). -/
def indexAdd (idx : InvertedIndex) (t doc : Str) (score : Nat) : InvertedIndex :=
  match idx with
  | [] => [(t, [(doc, score)])]
  | (t', p) :: rest =>
    if t' = t then (t', alAdd p doc score) :: rest
    else (t', p) :: indexAdd rest t doc score

/-- `Indexer._create_inverted_index_for_page_model`: merge this page's
`term_scores` into the inverted index. -/
def _create_inverted_index_for_page_model (m : PageModel) (idx : InvertedIndex) :
    InvertedIndex :=
  (term_scores_for_page m).foldl (fun i p => indexAdd i p.1 m.doc_id p.2) idx

/-- One doc-store entry (`{url, title, content}`). -/
structure DocEntry where
  url : Str
  title : Str
  content : Str
deriving DecidableEq, Repr

/-- `doc_store : dict[str, dict]`. -/
abbrev DocStore := List (Str × DocEntry)

/-- `Indexer._create_doc_store_for_page_model`: last write wins. -/
def _create_doc_store_for_page_model (m : PageModel) (ds : DocStore) : DocStore :=
  alSet ds m.doc_id ⟨m.final_url, m.title, m.content⟩

/-- Reading `inverted_index[t][doc]` with defaultdict semantics: a missing
term or document reads as 0. -/
def indexScore (idx : InvertedIndex) (t doc : Str) : Nat :=
  ((alGet idx t).bind (fun p => alGet p doc)).getD 0

/-- Indexing a sequence of page records starting from the empty index. -/
def indexPages (ms : List PageModel) : InvertedIndex :=
  ms.foldl (fun i m => _create_inverted_index_for_page_model m i) []

/-! ## Scoring-formula and stop-word lemmas -/

/-- Total weight attributed to key `t` by an association list (= its value,
since `alAdd` keeps keys unique, but stated for arbitrary lists). -/
def sumAt (l : List (Str × Nat)) (t : Str) : Nat :=
  match l with
  | [] => 0
  | (k, v) :: rest => (if k = t then v else 0) + sumAt rest t

theorem sumAt_alAdd (l : List (Str × Nat)) (k : Str) (v : Nat) (t : Str) :
    sumAt (alAdd l k v) t = sumAt l t + (if k = t then v else 0) := by
  induction l with
  | nil => simp [alAdd, sumAt]
  | cons p rest ih =>
    obtain ⟨k', v'⟩ := p
    by_cases hk : k' = k
    · subst hk
      simp only [alAdd, if_pos rfl, sumAt]
      split_ifs <;> omega
    · simp only [alAdd, if_neg hk, sumAt, ih]
      omega

theorem sumAt_counter_fold (ts : List Str) (acc : List (Str × Nat)) (t : Str) :
    sumAt (ts.foldl (fun a x => alAdd a x 1) acc) t = sumAt acc t + ts.count t := by
  induction ts generalizing acc with
  | nil => simp [sumAt]
  | cons x rest ih =>
    simp only [List.foldl_cons, ih, sumAt_alAdd, List.count_cons]
    by_cases hx : x = t
    · subst hx; simp; omega
    · have : ¬(t == x) := by simpa using fun h => hx h.symm
      simp [hx, this]

theorem sumAt_counter (ts : List Str) (t : Str) :
    sumAt (counter ts) t = ts.count t := by
  simpa [sumAt] using sumAt_counter_fold ts [] t

theorem sumAt_addFieldScores_fold (c : List (Str × Nat)) (ts : List (Str × Nat))
    (w : Nat) (t : Str) (hstop : t ∉ STOP_WORDS) :
    sumAt (c.foldl (fun acc p => if p.1 ∈ STOP_WORDS then acc else alAdd acc p.1 (p.2 * w)) ts) t
      = sumAt ts t + sumAt c t * w := by
  induction c generalizing ts with
  | nil => simp [sumAt]
  | cons p rest ih =>
    obtain ⟨k, v⟩ := p
    by_cases hk : k ∈ STOP_WORDS
    · have hkt : k ≠ t := fun h => hstop (h ▸ hk)
      simp [hk, ih, sumAt, hkt]
    · simp only [List.foldl_cons, if_neg hk, ih, sumAt_alAdd, sumAt]
      split_ifs <;> ring_nf

theorem sumAt_addFieldScores (ts : List (Str × Nat)) (tokens : List Str)
    (w : Nat) (t : Str) (hstop : t ∉ STOP_WORDS) :
    sumAt (addFieldScores ts tokens w) t = sumAt ts t + tokens.count t * w := by
  unfold addFieldScores
  rw [sumAt_addFieldScores_fold _ _ _ _ hstop, sumAt_counter]

theorem alGet_alAdd (l : List (Str × Nat)) (k : Str) (v : Nat) (k' : Str) :
    alGet (alAdd l k v) k'
      = if k = k' then some ((alGet l k').getD 0 + v) else alGet l k' := by
  induction l with
  | nil =>
    by_cases h : k = k' <;> simp [alAdd, alGet, h]
  | cons q rest ih =>
    obtain ⟨a, b⟩ := q
    by_cases ha : a = k
    · subst ha
      simp only [alAdd, if_pos rfl, alGet]
      by_cases h' : a = k' <;> simp [h']
    · simp only [alAdd, if_neg ha, alGet]
      by_cases h' : a = k'
      · have hk : ¬k = k' := fun h => ha (h' ▸ h.symm ▸ rfl)
        simp [h', hk]
      · simp [h', ih]

theorem alGet_indexAdd (idx : InvertedIndex) (t doc : Str) (s : Nat) (t' : Str) :
    alGet (indexAdd idx t doc s) t'
      = if t = t' then some (alAdd ((alGet idx t').getD []) doc s) else alGet idx t' := by
  induction idx with
  | nil =>
    by_cases h : t = t' <;> simp [indexAdd, alGet, h, alAdd]
  | cons q rest ih =>
    obtain ⟨a, p⟩ := q
    by_cases ha : a = t
    · subst ha
      simp only [indexAdd, if_pos rfl, alGet]
      by_cases h' : a = t' <;> simp [h']
    · simp only [indexAdd, if_neg ha, alGet]
      by_cases h' : a = t'
      · have hk : ¬t = t' := fun h => ha (h' ▸ h.symm ▸ rfl)
        simp [h', hk]
      · simp [h', ih]

theorem indexScore_indexAdd (idx : InvertedIndex) (t doc : Str) (s : Nat) (t' doc' : Str) :
    indexScore (indexAdd idx t doc s) t' doc'
      = indexScore idx t' doc' + (if t = t' ∧ doc = doc' then s else 0) := by
  unfold indexScore
  rw [alGet_indexAdd]
  by_cases ht : t = t'
  · subst ht
    simp only [if_pos rfl, Option.bind_some, alGet_alAdd, true_and]
    by_cases hd : doc = doc'
    · subst hd
      cases h : alGet idx t with
      | none => simp [h, alGet]
      | some p => simp [h, alGet_alAdd]
    · cases h : alGet idx t with
      | none => simp [h, hd, alGet]
      | some p => simp [h, hd, alGet_alAdd]
  · simp [ht, fun h : t = t' ∧ doc = doc' => ht h.1]

theorem indexScore_fold_term_scores (ts : List (Str × Nat)) (idx : InvertedIndex)
    (d t : Str) :
    indexScore (ts.foldl (fun i p => indexAdd i p.1 d p.2) idx) t d
      = indexScore idx t d + sumAt ts t := by
  induction ts generalizing idx with
  | nil => simp [sumAt]
  | cons p rest ih =>
    obtain ⟨k, v⟩ := p
    simp only [List.foldl_cons, ih, indexScore_indexAdd, sumAt]
    by_cases hk : k = t
    · simp [hk]; omega
    · simp [hk]

/-- C2 core computation: the `term_scores` entry of a non-stop-word term is
content count + 4 × headings count + 8 × title count. -/
theorem sumAt_term_scores (m : PageModel) (t : Str) (hstop : t ∉ STOP_WORDS) :
    sumAt (term_scores_for_page m) t
      = (tokenize_content_into_list_of_words m.content).count t
        + 4 * (tokenize_content_into_list_of_words (joinSpace m.headings)).count t
        + 8 * (tokenize_content_into_list_of_words m.title).count t := by
  unfold term_scores_for_page
  simp only [sumAt_addFieldScores _ _ _ _ hstop, TOKEN_TYPE_WEIGHTS, sumAt]
  ring

/-- C2: Scoring formula — for any `PageRecord` and any non-stop-word term `t`
occurring `a` times in the tokenised content, `b` times in the tokenised
joined headings and `c` times in the tokenised title, if the index has no
prior score for `(t, doc_id)` then after
`Indexer._create_inverted_index_for_page_model` the entry `index[t][doc_id]`
equals `a + 4*b + 8*c`. -/
theorem scoring_formula (m : PageModel) (idx : InvertedIndex) (t : Str)
    (hstop : t ∉ STOP_WORDS)
    (hprior : indexScore idx t m.doc_id = 0) :
    indexScore (_create_inverted_index_for_page_model m idx) t m.doc_id
      = (tokenize_content_into_list_of_words m.content).count t
        + 4 * (tokenize_content_into_list_of_words (joinSpace m.headings)).count t
        + 8 * (tokenize_content_into_list_of_words m.title).count t := by
  unfold _create_inverted_index_for_page_model
  rw [indexScore_fold_term_scores, hprior, sumAt_term_scores m t hstop]
  omega

/-- Concrete page record used by witnesses. -/
def samplePage : PageModel where
  doc_id := "docA".toList
  url := "https://a.com/p".toList
  final_url := "https://a.com/p".toList
  http_status := 200
  title := "Hello World".toList
  headings := ["Hello again".toList]
  content := "the quick hello hello".toList
  links := []

/-- Witness for C2: on `samplePage`, the term `hello` occurs twice in the
content, once in the headings and once in the title, so its score is
`2 + 4 + 8 = 14`. -/
theorem scoring_formula_witness :
    indexScore (_create_inverted_index_for_page_model samplePage []) "hello".toList
      samplePage.doc_id = 14 :=
  (scoring_formula samplePage [] "hello".toList (by decide) (by decide)).trans (by decide)

/-! ## Stop-word exclusion -/

theorem alAdd_key_mem {l : List (Str × Nat)} {k : Str} {v : Nat} {p : Str × Nat}
    (h : p ∈ alAdd l k v) : p.1 = k ∨ p ∈ l := by
  induction l with
  | nil =>
    have hp : p = (k, v) := by simpa [alAdd] using h
    exact Or.inl (by rw [hp])
  | cons q rest ih =>
    obtain ⟨a, b⟩ := q
    by_cases ha : a = k
    · subst ha
      simp only [alAdd, if_pos rfl] at h
      rcases List.mem_cons.mp h with h1 | h1
      · exact Or.inl (by rw [h1])
      · exact Or.inr (List.mem_cons_of_mem _ h1)
    · simp only [alAdd, if_neg ha] at h
      rcases List.mem_cons.mp h with h1 | h1
      · exact Or.inr (h1 ▸ List.mem_cons_self _ _)
      · rcases ih h1 with h2 | h2
        · exact Or.inl h2
        · exact Or.inr (List.mem_cons_of_mem _ h2)

theorem addFieldScores_fold_keys_not_stop (c ts : List (Str × Nat)) (w : Nat)
    (h : ∀ p ∈ ts, p.1 ∉ STOP_WORDS) :
    ∀ p ∈ c.foldl
      (fun acc p => if p.1 ∈ STOP_WORDS then acc else alAdd acc p.1 (p.2 * w)) ts,
      p.1 ∉ STOP_WORDS := by
  induction c generalizing ts with
  | nil => simpa using h
  | cons q rest ih =>
    obtain ⟨k, v⟩ := q
    by_cases hk : k ∈ STOP_WORDS
    · simpa [hk] using ih ts h
    · simp only [List.foldl_cons, if_neg hk]
      refine ih _ ?_
      intro p hp
      rcases alAdd_key_mem hp with h' | h'
      · exact h' ▸ hk
      · exact h p h'

theorem term_scores_keys_not_stop (m : PageModel) :
    ∀ p ∈ term_scores_for_page m, p.1 ∉ STOP_WORDS := by
  unfold term_scores_for_page addFieldScores
  refine addFieldScores_fold_keys_not_stop _ _ _ ?_
  refine addFieldScores_fold_keys_not_stop _ _ _ ?_
  refine addFieldScores_fold_keys_not_stop _ _ _ ?_
  simp

theorem alGet_none_create (m : PageModel) (idx : InvertedIndex) (t : Str)
    (h : alGet idx t = none) (hstop : t ∈ STOP_WORDS) :
    alGet (_create_inverted_index_for_page_model m idx) t = none := by
  unfold _create_inverted_index_for_page_model
  have hkeys := term_scores_keys_not_stop m
  revert hkeys
  generalize term_scores_for_page m = ts
  intro hkeys
  induction ts generalizing idx with
  | nil => simpa using h
  | cons q rest ih =>
    simp only [List.foldl_cons]
    refine ih _ ?_ (fun p hp => hkeys p (List.mem_cons_of_mem _ hp))
    rw [alGet_indexAdd]
    have : ¬q.1 = t := fun he => hkeys q (List.mem_cons_self _ _) (he ▸ hstop)
    simp [this, h]

/-- C8: Stop-word exclusion — for every sequence of page records indexed
starting from the empty index, no stop word ever appears as a key of the
inverted index. -/
theorem stop_word_exclusion (ms : List PageModel) (t : Str)
    (h : t ∈ STOP_WORDS) : alGet (indexPages ms) t = none := by
  unfold indexPages
  have base : alGet ([] : InvertedIndex) t = none := rfl
  revert base
  generalize ([] : InvertedIndex) = idx
  induction ms generalizing idx with
  | nil => exact fun base => base
  | cons m rest ih =>
    intro base
    simpa using ih _ (alGet_none_create m idx t base h)

/-- Witness for C8: `the` occurs in `samplePage`'s content but is a stop
word, so after indexing that page it is not a key of the index. -/
theorem stop_word_exclusion_witness :
    alGet (indexPages [samplePage]) "the".toList = none :=
  stop_word_exclusion [samplePage] "the".toList (by decide)

/-! ## URL-normalisation idempotence (C9) -/

/-- C9 counterexample: `normalize_url` is not idempotent.  On
`"http://a.com/x;/"` the first pass strips the trailing slash, leaving the
path `"/x;"`; the second pass splits the trailing `";"` off as an empty
params component, which `urlunparse` then drops, producing
`"http://a.com/x"`. -/
theorem normalize_url_not_idempotent :
    normalize_url (normalize_url "http://a.com/x;/".toList)
      ≠ normalize_url "http://a.com/x;/".toList := by
  decide

/-! ## Query processor

`query_response.py::QueryParser.generate_response_for_query`.  Python dicts
are insertion-ordered association lists; Python sets are modelled as
duplicate-free lists in first-insertion order (CPython's actual set
iteration order is hash-dependent and unspecified).  `sorted(...)` and
`heapq.nlargest(n, ...)` are stable: elements with equal keys keep their
original relative order, and `nlargest` is equivalent to a stable descending
sort followed by `take n`. -/

/-- Add an element to a Python-set modelled as a first-insertion-order list. -/
def insertUnique (l : List Str) (x : Str) : List Str :=
  if x ∈ l then l else l ++ [x]

/-- `set(keys)` in first-insertion order. -/
def setList (ks : List Str) : List Str := ks.foldl insertUnique []

/-- Stable insertion for an ascending sort by a `Nat` key: the new element
goes after every element with a key ≤ its own. -/
def insertAsc {α : Type} (key : α → Nat) (x : α) : List α → List α
  | [] => [x]
  | y :: ys => if key y ≤ key x then y :: insertAsc key x ys else x :: y :: ys

/-- Stable ascending sort by key (`list.sort(key=...)`). -/
def sortAscBy {α : Type} (key : α → Nat) (l : List α) : List α :=
  l.foldl (fun acc x => insertAsc key x acc) []

/-- Stable insertion for a descending sort by a `Nat` key: the new element
goes after every element with a key ≥ its own. -/
def insertDesc {α : Type} (key : α → Nat) (x : α) : List α → List α
  | [] => [x]
  | y :: ys => if key x ≤ key y then y :: insertDesc key x ys else x :: y :: ys

/-- Stable descending sort by key (`sorted(..., reverse=True)`). -/
def sortDescBy {α : Type} (key : α → Nat) (l : List α) : List α :=
  l.foldl (fun acc x => insertDesc key x acc) []

/-- `heapq.nlargest(n, l, key)`. -/
def nlargestBy {α : Type} (key : α → Nat) (n : Nat) (l : List α) : List α :=
  (sortDescBy key l).take n

/-- The `token_postings` dict: for each query token in order, skip stop
words, skip tokens with no (or an empty) posting, keep the rest. -/
def matchedPostings (tokens : List Str) (idx : InvertedIndex) :
    List (Str × Postings) :=
  tokens.foldl
    (fun acc tok =>
      if tok ∈ STOP_WORDS then acc
      else
        match alGet idx tok with
        | none => acc
        | some posting => if posting = [] then acc else alSet acc tok posting)
    []

/-- The `posting_sizes` list (`(len(posting), token)` pairs, duplicates for
repeated query tokens included). -/
def postingSizes (tokens : List Str) (idx : InvertedIndex) : List (Nat × Str) :=
  tokens.foldl
    (fun acc tok =>
      if tok ∈ STOP_WORDS then acc
      else
        match alGet idx tok with
        | none => acc
        | some posting => if posting = [] then acc else acc ++ [(posting.length, tok)])
    []

/-- `common_set`: intersect posting key sets smallest-first, keeping the
iteration order of the first set. -/
def commonSetOf (tp : List (Str × Postings)) (sortedToks : List Str) : List Str :=
  match sortedToks with
  | [] => []
  | tok :: rest =>
    rest.foldl
      (fun acc tok' => acc.filter (fun d => d ∈ ((alGet tp tok').getD []).map Prod.fst))
      (setList (((alGet tp tok).getD []).map Prod.fst))

/-- The AND-phase `doc_scores`: for each matched token and each doc in the
intersection, add the token's nonzero score for that doc. -/
def andScores (tp : List (Str × Postings)) (common : List Str) : List (Str × Nat) :=
  tp.foldl
    (fun ds p =>
      common.foldl
        (fun ds' d =>
          match alGet p.2 d with
          | none => ds'
          | some s => if s ≠ 0 then alAdd ds' d s else ds')
        ds)
    []

/-- The AND selection loop: walk the ranked candidates, stop at
`resp_size`, skip already-selected ids, append the rest. -/
def selectLoop (cands : List Str) (resp_size : Nat) (selected : List Str) :
    List Str :=
  match cands with
  | [] => selected
  | d :: rest =>
    if resp_size ≤ selected.length then selected
    else if d ∈ selected then selectLoop rest resp_size selected
    else selectLoop rest resp_size (selected ++ [d])

/-- The OR candidates of one posting: the whole posting if it has at most
`top_k` entries, otherwise its `top_k` largest by score. -/
def orCandidates (posting : Postings) (top_k : Nat) : Postings :=
  if posting.length ≤ top_k then posting else nlargestBy (·.2) top_k posting

/-- One token's round of the OR backfill inside the AND branch: accumulate
the token's candidates into `doc_scores` (skipping already-selected docs),
then immediately emit up to `remaining` highest-scoring pool entries that
are not yet selected. -/
def backfillToken (top_k remaining : Nat) (st : List (Str × Nat) × List Str)
    (posting : Postings) : List (Str × Nat) × List Str :=
  let ds := (orCandidates posting top_k).foldl
    (fun ds' p => if p.1 ∈ st.2 then ds' else alAdd ds' p.1 p.2) st.1
  let sel :=
    if ds ≠ [] then
      (nlargestBy (·.2) remaining ds).foldl
        (fun sel' p => if p.1 ∈ sel' then sel' else sel' ++ [p.1]) st.2
    else st.2
  (ds, sel)

/-- The OR-only `doc_scores` (empty AND set): accumulate every token's
candidates, no selected-filter. -/
def orOnlyScores (tp : List (Str × Postings)) (top_k : Nat) : List (Str × Nat) :=
  tp.foldl
    (fun ds p => (orCandidates p.2 top_k).foldl (fun ds' q => alAdd ds' q.1 q.2) ds)
    []

/-- One entry of the query response (`{doc_id, url, title}`). -/
structure QueryResult where
  doc_id : Str
  url : Str
  title : Str
deriving DecidableEq, Repr

/-- Shape the selected ids through the doc store, silently skipping ids
without a doc-store entry. -/
def buildResults (selected : List Str) (ds : DocStore) : List QueryResult :=
  selected.filterMap (fun d => (alGet ds d).map (fun m => ⟨d, m.url, m.title⟩))

/-- `QueryParser.generate_response_for_query`.  `resp_size` and `top_k` are
parameters: modelled from the spec, `CommonVariables.RESPONSE_SIZE` and
`CommonVariables.TOP_K_PER_TERM` are read by `query_response.py` but never
defined in `utils/variables.py`, and the spec leaves their values
unspecified. -/
def generate_response_for_query (query : Str) (inverted_index : InvertedIndex)
    (doc_store : DocStore) (resp_size top_k : Nat) : List QueryResult :=
  let tokens := tokenize_content_into_list_of_words query
  let tp := matchedPostings tokens inverted_index
  let sizes := postingSizes tokens inverted_index
  if sizes = [] then []
  else
    let sortedToks := (sortAscBy (·.1) sizes).map (·.2)
    let common := commonSetOf tp sortedToks
    if common ≠ [] then
      let ds0 := andScores tp common
      let ordered := sortDescBy (fun d => (alGet ds0 d).getD 0) common
      let sel0 := selectLoop ordered resp_size []
      if resp_size ≤ sel0.length then buildResults sel0 doc_store
      else
        let remaining := resp_size - sel0.length
        let st := tp.foldl (fun st p => backfillToken top_k remaining st p.2) (ds0, sel0)
        buildResults st.2 doc_store
    else
      let dsO := orOnlyScores tp top_k
      let sel := (nlargestBy (·.2) resp_size dsO).map (·.1)
      buildResults sel doc_store

/-! ## Result-size bound (C5) -/

theorem buildResults_length_le (sel : List Str) (ds : DocStore) :
    (buildResults sel ds).length ≤ sel.length :=
  List.length_filterMap_le _ _

theorem selectLoop_length_le (c : List Str) (r : Nat) (s : List Str) :
    (selectLoop c r s).length ≤ max s.length r := by
  induction c generalizing s with
  | nil => simp [selectLoop]
  | cons d rest ih =>
    simp only [selectLoop]
    split_ifs with h1 h2
    · exact le_max_left _ _
    · exact ih s
    · refine (ih (s ++ [d])).trans ?_
      simp only [List.length_append, List.length_singleton]
      omega

theorem emit_fold_length_le (l : List (Str × Nat)) (sel : List Str) :
    (l.foldl (fun sel' p => if p.1 ∈ sel' then sel' else sel' ++ [p.1]) sel).length
      ≤ sel.length + l.length := by
  induction l generalizing sel with
  | nil => simp
  | cons p rest ih =>
    simp only [List.foldl_cons, List.length_cons]
    split_ifs with h
    · exact (ih sel).trans (by omega)
    · exact (ih (sel ++ [p.1])).trans (by simp; omega)

theorem nlargestBy_length_le {α : Type} (key : α → Nat) (n : Nat) (l : List α) :
    (nlargestBy key n l).length ≤ n := by
  simp only [nlargestBy, List.length_take]
  omega

theorem backfillToken_sel_length (top_k remaining : Nat)
    (st : List (Str × Nat) × List Str) (posting : Postings) :
    (backfillToken top_k remaining st posting).2.length ≤ st.2.length + remaining := by
  simp only [backfillToken]
  split_ifs with h
  · refine (emit_fold_length_le _ _).trans ?_
    have := nlargestBy_length_le (α := Str × Nat) (·.2) remaining
      ((orCandidates posting top_k).foldl
        (fun ds' p => if p.1 ∈ st.2 then ds' else alAdd ds' p.1 p.2) st.1)
    omega
  · omega

theorem backfill_fold_sel_length (tp : List (Str × Postings)) (top_k remaining : Nat)
    (st : List (Str × Nat) × List Str) :
    ((tp.foldl (fun st p => backfillToken top_k remaining st p.2) st).2).length
      ≤ st.2.length + tp.length * remaining := by
  induction tp generalizing st with
  | nil => simp
  | cons p rest ih =>
    simp only [List.foldl_cons, List.length_cons]
    refine (ih (backfillToken top_k remaining st p.2)).trans ?_
    have := backfillToken_sel_length top_k remaining st p.2
    have harith : (rest.length + 1) * remaining = rest.length * remaining + remaining := by
      ring
    omega

theorem backfill_fold_sel_length' (tp : List (Str × Postings)) (top_k remaining : Nat)
    (ds0 : List (Str × Nat)) (sel0 : List Str) :
    ((tp.foldl (fun st p => backfillToken top_k remaining st p.2) (ds0, sel0)).2).length
      ≤ sel0.length + tp.length * remaining :=
  backfill_fold_sel_length tp top_k remaining (ds0, sel0)

theorem bound_arith (a k r : Nat) (ha : a ≤ r) : a + k * (r - a) ≤ max 1 k * r := by
  rcases Nat.eq_zero_or_pos k with hk | hk
  · subst hk
    simp only [Nat.zero_mul, Nat.add_zero]
    calc a ≤ r := ha
    _ = 1 * r := (one_mul r).symm
    _ ≤ max 1 0 * r := Nat.mul_le_mul_right r (le_max_left _ _)
  · have hmax : max 1 k = k := Nat.max_eq_right hk
    rw [hmax]
    obtain ⟨b, rfl⟩ := Nat.le.dest ha
    have hb : a + b - a = b := by omega
    rw [hb]
    calc a + k * b ≤ k * a + k * b := Nat.add_le_add_right (Nat.le_mul_of_pos_left a hk) _
    _ = k * (a + b) := (Nat.mul_add k a b).symm

/-- C5 counterexample data: two matched tokens, a weak single AND hit, and
strong OR candidates on the second token. -/
def overflowIndex : InvertedIndex :=
  [("aa".toList, [("d0".toList, 1), ("d1".toList, 9), ("d2".toList, 8)]),
   ("bb".toList, [("d0".toList, 1), ("d3".toList, 100), ("d4".toList, 90)])]

/-- Doc store holding all five candidate documents. -/
def overflowStore : DocStore :=
  [("d0".toList, ⟨"u0".toList, "t0".toList, []⟩),
   ("d1".toList, ⟨"u1".toList, "t1".toList, []⟩),
   ("d2".toList, ⟨"u2".toList, "t2".toList, []⟩),
   ("d3".toList, ⟨"u3".toList, "t3".toList, []⟩),
   ("d4".toList, ⟨"u4".toList, "t4".toList, []⟩)]

/-- C5 counterexample: with `RESPONSE_SIZE = 3` and `TOP_K_PER_TERM = 10`,
the query `"aa bb"` returns five results — the OR backfill emits up to
`remaining` ids after each token's accumulation without re-checking the
response size, so the returned list exceeds `RESPONSE_SIZE`. -/
theorem response_size_exceeded :
    (generate_response_for_query "aa bb".toList overflowIndex overflowStore 3 10).length = 5
      ∧ 3 < (generate_response_for_query "aa bb".toList overflowIndex overflowStore 3 10).length := by
  decide

/-- C5 amended: the result list of `generate_response_for_query` contains at
most `max 1 k * RESPONSE_SIZE` entries, where `k` is the number of distinct
matched tokens (equality of the `RESPONSE_SIZE` bound holds only when the
AND set already fills the response or in the OR-only branch; each backfill
round can add up to `RESPONSE_SIZE - |AND selection|` further ids). -/
theorem generate_response_size_bound (query : Str) (idx : InvertedIndex)
    (ds : DocStore) (resp top_k : Nat) :
    (generate_response_for_query query idx ds resp top_k).length
      ≤ max 1 (matchedPostings (tokenize_content_into_list_of_words query) idx).length
          * resp := by
  have hresp : resp ≤ max 1 (matchedPostings (tokenize_content_into_list_of_words query) idx).length * resp := by
    calc resp = 1 * resp := (one_mul resp).symm
    _ ≤ _ := Nat.mul_le_mul_right resp (le_max_left _ _)
  simp only [generate_response_for_query]
  split_ifs with h1 h2 h3
  · simp
  · refine le_trans ?_ hresp
    refine (buildResults_length_le _ _).trans ?_
    simpa using selectLoop_length_le _ resp []
  · refine (buildResults_length_le _ _).trans ?_
    refine (backfill_fold_sel_length' _ top_k _ _ _).trans ?_
    exact bound_arith _ _ _ (by simpa using selectLoop_length_le _ resp [])
  · refine le_trans ?_ hresp
    refine (buildResults_length_le _ _).trans ?_
    simp only [List.length_map]
    exact nlargestBy_length_le _ _ _

/-! ## AND ranking order (C6) -/

theorem mem_insertDesc {α : Type} (key : α → Nat) (x : α) (l : List α) (z : α)
    (h : z ∈ insertDesc key x l) : z = x ∨ z ∈ l := by
  induction l with
  | nil => simpa [insertDesc] using h
  | cons y ys ih =>
    simp only [insertDesc] at h
    split_ifs at h with hle
    · rcases List.mem_cons.mp h with h1 | h1
      · exact Or.inr (h1 ▸ List.mem_cons_self _ _)
      · rcases ih h1 with h2 | h2
        · exact Or.inl h2
        · exact Or.inr (List.mem_cons_of_mem _ h2)
    · rcases List.mem_cons.mp h with h1 | h1
      · exact Or.inl h1
      · exact Or.inr h1

theorem insertDesc_pairwise {α : Type} (key : α → Nat) (x : α) (l : List α)
    (hl : l.Pairwise (fun a b => key b ≤ key a)) :
    (insertDesc key x l).Pairwise (fun a b => key b ≤ key a) := by
  induction l with
  | nil => simp [insertDesc]
  | cons y ys ih =>
    rcases List.pairwise_cons.mp hl with ⟨hy, hys⟩
    simp only [insertDesc]
    split_ifs with hle
    · refine List.pairwise_cons.mpr ⟨?_, ih hys⟩
      intro z hz
      rcases mem_insertDesc key x ys z hz with h1 | h1
      · exact h1 ▸ hle
      · exact hy z h1
    · refine List.pairwise_cons.mpr ⟨?_, hl⟩
      intro z hz
      rcases List.mem_cons.mp hz with h1 | h1
      · exact h1 ▸ Nat.le_of_not_le hle
      · exact (hy z h1).trans (Nat.le_of_not_le hle)

theorem sortDescBy_pairwise {α : Type} (key : α → Nat) (l : List α) :
    (sortDescBy key l).Pairwise (fun a b => key b ≤ key a) := by
  unfold sortDescBy
  have : ∀ acc : List α, acc.Pairwise (fun a b => key b ≤ key a) →
      (l.foldl (fun acc x => insertDesc key x acc) acc).Pairwise
        (fun a b => key b ≤ key a) := by
    induction l with
    | nil => exact fun acc h => h
    | cons x xs ih =>
      intro acc hacc
      exact ih _ (insertDesc_pairwise key x acc hacc)
  exact this [] (by simp)

theorem selectLoop_eq_append (c : List Str) (r : Nat) (s : List Str) :
    ∃ t, selectLoop c r s = s ++ t ∧ t.Sublist c := by
  induction c generalizing s with
  | nil => exact ⟨[], by simp [selectLoop]⟩
  | cons d rest ih =>
    simp only [selectLoop]
    split_ifs with h1 h2
    · exact ⟨[], by simp⟩
    · obtain ⟨t, ht, hsub⟩ := ih s
      exact ⟨t, ht, hsub.cons d⟩
    · obtain ⟨t, ht, hsub⟩ := ih (s ++ [d])
      exact ⟨d :: t, by simpa using ht, hsub.cons₂ d⟩

/-- C6 counterexample data: one token whose two postings have equal scores,
stored with the lexicographically larger doc id first. -/
def tieIndex : InvertedIndex :=
  [("q".toList, [("b".toList, 5), ("a".toList, 5)])]

/-- Doc store for the tie counterexample. -/
def tieStore : DocStore :=
  [("a".toList, ⟨"ua".toList, "ta".toList, []⟩),
   ("b".toList, ⟨"ub".toList, "tb".toList, []⟩)]

/-- C6 counterexample: for the query `"q"` both documents accumulate the
same score, yet the result order is `["b", "a"]` — the sort key is only the
score (`sorted(common_set, key=..., reverse=True)`), so ties keep the
arbitrary iteration order of the intersection set instead of being broken
by ascending `doc_id`. -/
theorem and_ranking_tie_not_ascending :
    indexScore tieIndex "q".toList "a".toList = indexScore tieIndex "q".toList "b".toList
      ∧ (generate_response_for_query "q".toList tieIndex tieStore 10 10).map QueryResult.doc_id
          = ["b".toList, "a".toList] := by
  decide

/-- C6 amended: the AND-phase selection (ranked intersection, truncated at
`RESPONSE_SIZE`) is ordered by non-increasing accumulated score; ties keep
the iteration order of the intersection set (no `doc_id` tie-break, so the
order is not deterministic across set-iteration orders). -/
theorem and_ranking_descending (tp : List (Str × Postings)) (common : List Str)
    (resp : Nat) :
    (selectLoop
        (sortDescBy (fun d => (alGet (andScores tp common) d).getD 0) common) resp []).Pairwise
      (fun d d' =>
        (alGet (andScores tp common) d').getD 0 ≤ (alGet (andScores tp common) d).getD 0) := by
  obtain ⟨t, ht, hsub⟩ := selectLoop_eq_append
    (sortDescBy (fun d => (alGet (andScores tp common) d).getD 0) common) resp []
  rw [ht]
  simpa using (sortDescBy_pairwise (fun d => (alGet (andScores tp common) d).getD 0) common).sublist hsub

/-! ## Indexer consume loop (`Indexer.start_indexing`)

The loop body is: break when `CrawlDone ∧ queue empty`; wait for a record
with a 0.5 s timeout (a timeout re-enters the loop, i.e. re-checks the
condition); for a received record run the try-block update, and in
`finally` rewrite both JSON files from the current in-memory state and call
`task_done`, after which a try-block exception propagates out of the loop.
The try-block body is a parameter `upd` returning the in-memory state at
exit together with a raised-exception flag, so that both the normal path
(`indexerUpdate`, which never raises) and a raising update are covered. -/

/-- In-memory state of the `Indexer`. -/
structure IndexerState where
  inverted_index : InvertedIndex
  doc_store : DocStore
deriving DecidableEq, Repr

/-- Observable effects of one pass of the consume loop. -/
inductive IdxEffect where
  | writeInvertedIndexJson (idx : InvertedIndex)
  | writeDocStoreJson (ds : DocStore)
  | taskDone
deriving DecidableEq, Repr

/-- The real try-block body: `_create_inverted_index_for_page_model` then
`_create_doc_store_for_page_model`; it raises nothing. -/
def indexerUpdate (m : PageModel) (st : IndexerState) : IndexerState × Bool :=
  (⟨_create_inverted_index_for_page_model m st.inverted_index,
    _create_doc_store_for_page_model m st.doc_store⟩, false)

/-- Handling of one dequeued record: run the try-block, then — in
`finally`, hence regardless of a raise — write the inverted-index JSON,
write the doc-store JSON and acknowledge the queue item. -/
def handleRecord (upd : PageModel → IndexerState → IndexerState × Bool)
    (m : PageModel) (st : IndexerState) :
    IndexerState × List IdxEffect × Bool :=
  let r := upd m st
  (r.1,
   [.writeInvertedIndexJson r.1.inverted_index, .writeDocStoreJson r.1.doc_store, .taskDone],
   r.2)

/-- Status of the consume loop. -/
inductive IdxStatus where
  | running
  | exited
  | errored
deriving DecidableEq, Repr

/-- Composite state of the consume loop: pending queue, in-memory state,
accumulated effect trace, loop status. -/
structure IdxLoopState where
  queue : List PageModel
  st : IndexerState
  trace : List IdxEffect
  status : IdxStatus
deriving DecidableEq, Repr

/-- One iteration of the `while True` loop of `Indexer.start_indexing`. -/
def indexerLoopStep (upd : PageModel → IndexerState → IndexerState × Bool)
    (crawl_done : Bool) (s : IdxLoopState) : IdxLoopState :=
  match s.status with
  | .exited => s
  | .errored => s
  | .running =>
    if crawl_done ∧ s.queue = [] then { s with status := .exited }
    else
      match s.queue with
      | [] => s
      | m :: rest =>
        let r := handleRecord upd m s.st
        { queue := rest, st := r.1, trace := s.trace ++ r.2.1,
          status := if r.2.2 then .errored else .running }

/-- Final in-memory state after consuming a queue with the real update. -/
def indexerFinalState (q : List PageModel) (st : IndexerState) : IndexerState :=
  q.foldl (fun s m => (indexerUpdate m s).1) st

/-- Effect trace of consuming a queue with the real update. -/
def indexerRunTrace (q : List PageModel) (st : IndexerState) : List IdxEffect :=
  match q with
  | [] => []
  | m :: rest =>
    let st' := (indexerUpdate m st).1
    [.writeInvertedIndexJson st'.inverted_index, .writeDocStoreJson st'.doc_store, .taskDone]
      ++ indexerRunTrace rest st'

theorem indexerLoopStep_run_done (q : List PageModel) (st : IndexerState)
    (tr : List IdxEffect) :
    (indexerLoopStep indexerUpdate true)^[q.length + 1] ⟨q, st, tr, .running⟩
      = ⟨[], indexerFinalState q st, tr ++ indexerRunTrace q st, .exited⟩ := by
  induction q generalizing st tr with
  | nil =>
    simp [indexerLoopStep, indexerFinalState, indexerRunTrace]
  | cons m rest ih =>
    rw [List.length_cons, Function.iterate_succ_apply]
    have hstep : indexerLoopStep indexerUpdate true ⟨m :: rest, st, tr, .running⟩
        = ⟨rest, (indexerUpdate m st).1,
            tr ++ [.writeInvertedIndexJson ((indexerUpdate m st).1).inverted_index,
              .writeDocStoreJson ((indexerUpdate m st).1).doc_store, .taskDone], .running⟩ := by
      simp [indexerLoopStep, handleRecord, indexerUpdate]
    rw [hstep, ih]
    simp [indexerFinalState, indexerRunTrace]

theorem indexerLoopStep_not_done_never_exits (n : Nat) (s : IdxLoopState)
    (h : s.status ≠ .exited) :
    ((indexerLoopStep indexerUpdate false)^[n] s).status ≠ .exited := by
  induction n generalizing s with
  | zero => simpa using h
  | succ n ih =>
    rw [Function.iterate_succ_apply]
    refine ih _ ?_
    cases hs : s.status with
    | exited => exact absurd hs h
    | errored => simp [indexerLoopStep, hs]
    | running =>
      cases hq : s.queue with
      | nil => simp [indexerLoopStep, hs, hq]
      | cons m rest => simp [indexerLoopStep, hs, hq, handleRecord, indexerUpdate]

/-- C7: Indexer termination condition — the consume loop's iteration exits
exactly when `CrawlDone` is set and the queue is empty; with `CrawlDone`
set it drains the whole queue in order (processing every record and
emitting its persistence effects) and then exits; with `CrawlDone` unset it
never exits, and a receive timeout (empty queue, `CrawlDone` unset) leaves
the state unchanged, i.e. the loop re-checks the condition and continues. -/
theorem indexer_termination_iff :
    (∀ (done : Bool) (q : List PageModel) (st : IndexerState) (tr : List IdxEffect),
      (indexerLoopStep indexerUpdate done ⟨q, st, tr, .running⟩).status = .exited
        ↔ (done = true ∧ q = []))
    ∧ (∀ (q : List PageModel) (st : IndexerState),
        (indexerLoopStep indexerUpdate true)^[q.length + 1] ⟨q, st, [], .running⟩
          = ⟨[], indexerFinalState q st, indexerRunTrace q st, .exited⟩)
    ∧ (∀ (n : Nat) (q : List PageModel) (st : IndexerState) (tr : List IdxEffect),
        ((indexerLoopStep indexerUpdate false)^[n] ⟨q, st, tr, .running⟩).status ≠ .exited)
    ∧ (∀ (st : IndexerState) (tr : List IdxEffect),
        indexerLoopStep indexerUpdate false ⟨[], st, tr, .running⟩ = ⟨[], st, tr, .running⟩) := by
  refine ⟨?_, ?_, ?_, ?_⟩
  · intro done q st tr
    cases done with
    | false =>
      cases q with
      | nil => simp [indexerLoopStep]
      | cons m rest => simp [indexerLoopStep, handleRecord, indexerUpdate]
    | true =>
      cases q with
      | nil => simp [indexerLoopStep]
      | cons m rest => simp [indexerLoopStep, handleRecord, indexerUpdate]
  · intro q st
    simpa using indexerLoopStep_run_done q st []
  · intro n q st tr
    exact indexerLoopStep_not_done_never_exits n _ (by simp)
  · intro st tr
    simp [indexerLoopStep]

/-- C10: Per-record persistence and acknowledgement — for every dequeued
record, whatever the try-block update does (including raising), the
`finally` block writes the inverted-index JSON and the doc-store JSON from
the current in-memory state and marks the queue item done; if the update
raised, the loop then stops with the exception propagating (status
`errored`, remaining queue unconsumed), and an errored loop makes no
further progress. -/
theorem per_record_persistence
    (upd : PageModel → IndexerState → IndexerState × Bool) (done : Bool)
    (m : PageModel) (q : List PageModel) (st : IndexerState) (tr : List IdxEffect) :
    (handleRecord upd m st).2.1
      = [.writeInvertedIndexJson ((upd m st).1).inverted_index,
         .writeDocStoreJson ((upd m st).1).doc_store, .taskDone]
    ∧ ((upd m st).2 = true →
        indexerLoopStep upd done ⟨m :: q, st, tr, .running⟩
          = ⟨q, (upd m st).1,
              tr ++ [.writeInvertedIndexJson ((upd m st).1).inverted_index,
                .writeDocStoreJson ((upd m st).1).doc_store, .taskDone], .errored⟩)
    ∧ (∀ s : IdxLoopState, s.status = .errored → indexerLoopStep upd done s = s) := by
  refine ⟨rfl, ?_, ?_⟩
  · intro hraise
    simp [indexerLoopStep, handleRecord, hraise]
  · intro s hs
    cases s with
    | mk q' st' tr' status' =>
      cases status' with
      | running => simp at hs
      | exited => simp at hs
      | errored => simp [indexerLoopStep]

/-- An always-raising try-block update, used to witness C10. -/
def raisingUpdate (_ : PageModel) (st : IndexerState) : IndexerState × Bool :=
  (st, true)

/-- Witness for C10: with an update that raises on `samplePage`, the record's
handling still emits both JSON writes and the acknowledgement, and the loop
stops in the errored state with the rest of the queue unconsumed. -/
theorem per_record_persistence_witness :
    (handleRecord raisingUpdate samplePage ⟨[], []⟩).2.1
      = [.writeInvertedIndexJson [], .writeDocStoreJson [], .taskDone]
    ∧ indexerLoopStep raisingUpdate true ⟨[samplePage, samplePage], ⟨[], []⟩, [], .running⟩
        = ⟨[samplePage], ⟨[], []⟩,
            [.writeInvertedIndexJson [], .writeDocStoreJson [], .taskDone], .errored⟩ := by
  have h := per_record_persistence raisingUpdate true samplePage [samplePage] ⟨[], []⟩ []
  exact ⟨h.1, h.2.1 rfl⟩

/-! ## Crawler (`crawler.py::WebCrawler`)

`WebCrawler.__init__` creates `visited_urls` (a set), `urls_crawled`, and
`url_frontier` (an `asyncio.Queue` with `maxsize=MAX_LIMIT`) — and nothing
else: in particular no page-model queue and no crawl-done event, although
`main.py` and `app.py` pass `crawler.page_model_frontier` and
`crawler.crawl_done` to the indexer.

The embedding is parameterised by a configuration carrying `MAX_LIMIT`,
`BATCH_SIZE`, the URL normaliser (`normalize_url` in the shipped code) and a
fetch-and-parse oracle mapping a fetched URL to the `PageModel` that
`_parse_response_and_make_page_model` produces for its response (`none` for
any fetch failure, non-200 status, non-HTML/XML content type or parse
error).  The visited set is a duplicate-free insertion-ordered list. -/

/-- Crawl configuration and environment. -/
structure CrawlConfig where
  MAX_LIMIT : Nat
  BATCH_SIZE : Nat
  norm : Str → Str
  fetchParse : Str → Option PageModel

/-- `self.visited_urls.add(v)`. -/
def visInsert (s : List Str) (v : Str) : List Str :=
  if v ∈ s then s else s ++ [v]

/-- The URL-collection loop of `_fetch_pages_for_urls_and_return_response`:
`while not frontier.empty() and count <= BATCH_SIZE and len(visited) <=
MAX_LIMIT`, dequeue, normalise, add to the visited set and to the batch.
Returns `(batch, frontier', visited')`. -/
def drainLoop (cfg : CrawlConfig) (cnt : Nat) (frontier visited urls : List Str) :
    List Str × List Str × List Str :=
  match frontier with
  | [] => (urls, [], visited)
  | u :: rest =>
    if cnt ≤ cfg.BATCH_SIZE ∧ visited.length ≤ cfg.MAX_LIMIT then
      let n := cfg.norm u
      drainLoop cfg (cnt + 1) rest (visInsert visited n) (urls ++ [n])
    else (urls, u :: rest, visited)

/-- `WebCrawler._add_urls_in_queue`: compute the available space
(`MAX_LIMIT - qsize`), drop everything if none, otherwise take the first
`min(len(urls), available)` URLs, normalise each, skip those already
visited, and push the rest. -/
def _add_urls_in_queue (cfg : CrawlConfig) (urls frontier visited : List Str) :
    List Str :=
  let available_space := cfg.MAX_LIMIT - frontier.length
  if available_space = 0 then frontier
  else
    let urls_to_add := min urls.length available_space
    (urls.take urls_to_add).foldl
      (fun fr url =>
        let n := cfg.norm url
        if n ∈ visited then fr else fr ++ [n])
      frontier

/-- Crawler state: the attributes of `WebCrawler` (the unused
`urls_crawled` counter is omitted). -/
structure CrawlState where
  frontier : List Str
  visited : List Str
deriving DecidableEq, Repr

/-- Observable effects of the crawler.  `pagePut` (handoff of a record into
a page queue) and `setCrawlDone` (the one-shot done signal) are the effects
the pipeline design calls for; the loop body can be observed never to emit
them. -/
inductive CrawlEffect where
  | fetch (url : Str)
  | jsonlWrite (m : PageModel)
  | pagePut (m : PageModel)
  | setCrawlDone
deriving DecidableEq, Repr

/-- The response-processing phase of one `start_crawler` iteration: for each
response (in batch order), break out if `len(visited) > MAX_LIMIT` (the
visited set does not change in this phase, so the break fires for all
responses or none); otherwise, when parsing produced a record, write it to
the JSONL dump and enqueue its links.  Returns the new frontier and the
emitted effects. -/
def processResponses (cfg : CrawlConfig) (batch frontier visited : List Str) :
    List Str × List CrawlEffect :=
  if cfg.MAX_LIMIT < visited.length then (frontier, [])
  else
    batch.foldl
      (fun (acc : List Str × List CrawlEffect) url =>
        match cfg.fetchParse url with
        | none => acc
        | some m =>
          (_add_urls_in_queue cfg m.links acc.1 visited, acc.2 ++ [.jsonlWrite m]))
      (frontier, [])

/-- The `while` condition of `WebCrawler.start_crawler`. -/
def crawlActive (cfg : CrawlConfig) (s : CrawlState) : Bool :=
  !s.frontier.isEmpty && decide (s.visited.length < cfg.MAX_LIMIT)

/-- One iteration of `WebCrawler.start_crawler`: drain a batch, fetch each
batch URL, process the responses.  On an inactive state: no effect (the
code after the loop only logs — it signals nothing). -/
def crawlIter (cfg : CrawlConfig) (s : CrawlState) : CrawlState × List CrawlEffect :=
  if crawlActive cfg s then
    let d := drainLoop cfg 1 s.frontier s.visited []
    let pr := processResponses cfg d.1 d.2.1 d.2.2
    (⟨pr.1, d.2.2⟩, d.1.map CrawlEffect.fetch ++ pr.2)
  else (s, [])

/-- The state transition of one `start_crawler` iteration. -/
def crawlStep (cfg : CrawlConfig) (s : CrawlState) : CrawlState :=
  (crawlIter cfg s).1

/-- Fuelled run of the whole `start_crawler` loop, accumulating effects;
stops early when the loop condition fails. -/
def crawlRun (cfg : CrawlConfig) (fuel : Nat) (s : CrawlState) :
    CrawlState × List CrawlEffect :=
  match fuel with
  | 0 => (s, [])
  | fuel + 1 =>
    if crawlActive cfg s then
      let it := crawlIter cfg s
      let rec_ := crawlRun cfg fuel it.1
      (rec_.1, it.2 ++ rec_.2)
    else (s, [])

/-- Effects that would constitute the crawler-to-indexer pipeline handoff. -/
def isHandoffEffect : CrawlEffect → Bool
  | .pagePut _ => true
  | .setCrawlDone => true
  | _ => false

/-- The page served in the C1 scenario. -/
def c1Page : PageModel where
  doc_id := "h1".toList
  url := "https://a.com/p".toList
  final_url := "https://a.com/p".toList
  http_status := 200
  title := "T".toList
  headings := []
  content := "body".toList
  links := []

/-- C1 scenario configuration: one seed whose page parses successfully and
has no links. -/
def c1Cfg : CrawlConfig where
  MAX_LIMIT := 10
  BATCH_SIZE := 20
  norm := normalize_url
  fetchParse := fun u => if u = "https://a.com/p".toList then some c1Page else none

/-- C1: evaluated on a crawl that successfully parses one `PageRecord`, the
crawler's complete effect trace is one fetch and one JSONL write: the
record is never handed to a page queue and no crawl-done signal is ever
set, neither inside the loop nor after it exits. -/
theorem crawler_no_handoff_no_done :
    (crawlRun c1Cfg 3 ⟨["https://a.com/p".toList], []⟩).2
        = [.fetch "https://a.com/p".toList, .jsonlWrite c1Page]
      ∧ (crawlRun c1Cfg 3 ⟨["https://a.com/p".toList], []⟩).2.filter isHandoffEffect = []
      ∧ crawlActive c1Cfg (crawlRun c1Cfg 3 ⟨["https://a.com/p".toList], []⟩).1 = false := by
  decide

/-- C3 scenario configuration (the fetch oracle is irrelevant to draining). -/
def c3Cfg : CrawlConfig where
  MAX_LIMIT := 10
  BATCH_SIZE := 20
  norm := normalize_url
  fetchParse := fun _ => none

/-- C3 counterexample: two frontier entries normalising to the same URL are
both fetched — the drain loop adds each dequeued URL to the visited set and
to the fetch batch without checking whether it is already visited, so the
batch contains `https://a.com/x` twice even though it is in the visited set
when dequeued the second time. -/
theorem refetch_same_url :
    (drainLoop c3Cfg 1 ["https://A.COM/x".toList, "https://a.com/x/".toList] [] []).1
        = ["https://a.com/x".toList, "https://a.com/x".toList]
      ∧ (drainLoop c3Cfg 1 ["https://A.COM/x".toList, "https://a.com/x/".toList] [] []).2.2
        = ["https://a.com/x".toList] := by
  decide

theorem add_urls_fold_not_visited (cfg : CrawlConfig) (l frontier visited : List Str)
    (u : Str)
    (hmem : u ∈ l.foldl
      (fun fr url => let n := cfg.norm url; if n ∈ visited then fr else fr ++ [n])
      frontier)
    (hfr : u ∉ frontier) : u ∉ visited := by
  induction l generalizing frontier with
  | nil => exact absurd hmem hfr
  | cons x rest ih =>
    simp only [List.foldl_cons] at hmem
    by_cases hx : cfg.norm x ∈ visited
    · simp only [hx, if_pos] at hmem
      exact ih frontier hmem hfr
    · simp only [hx, if_neg, not_false_iff] at hmem
      by_cases hu : u ∈ frontier ++ [cfg.norm x]
      · rcases List.mem_append.mp hu with h1 | h1
        · exact absurd h1 hfr
        · have : u = cfg.norm x := by simpa using h1
          exact this ▸ hx
      · exact ih _ hmem hu

/-- C3 amended: deduplication against the visited set happens only at
enqueue time — `_add_urls_in_queue` never adds a URL whose normalisation is
already visited (so every frontier entry beyond the pre-existing ones is
unvisited at enqueue time) — while a dequeued URL is fetched
unconditionally; hence a URL enqueued more than once before its first fetch
is fetched more than once. -/
theorem add_urls_enqueue_dedup (cfg : CrawlConfig) (urls frontier visited : List Str)
    (u : Str) (hmem : u ∈ _add_urls_in_queue cfg urls frontier visited)
    (hfr : u ∉ frontier) : u ∉ visited := by
  simp only [_add_urls_in_queue] at hmem
  split_ifs at hmem with h
  · exact absurd hmem hfr
  · exact add_urls_fold_not_visited cfg _ frontier visited u hmem hfr

/-- Witness for C3's amended claim: a freshly enqueued URL is not in the
visited set. -/
theorem add_urls_enqueue_dedup_witness :
    "https://b.com/y".toList ∉ (["https://a.com/x".toList] : List Str) :=
  add_urls_enqueue_dedup c3Cfg ["https://b.com/y/".toList] []
    ["https://a.com/x".toList] "https://b.com/y".toList (by decide) (by decide)

/-! ## Crawler termination and visited cap (C4) -/

/-- The page of the non-termination scenario: `https://a.com/x` links to
`https://a.com/x;/`, which normalises to `https://a.com/x;` — a URL that is
not in the visited set but re-normalises (at dequeue time) back to the
already-visited `https://a.com/x`. -/
def loopPage : PageModel where
  doc_id := "h2".toList
  url := "https://a.com/x".toList
  final_url := "https://a.com/x".toList
  http_status := 200
  title := []
  headings := []
  content := []
  links := ["https://a.com/x;/".toList]

/-- Configuration of the non-termination scenario. -/
def loopCfg : CrawlConfig where
  MAX_LIMIT := 2
  BATCH_SIZE := 20
  norm := normalize_url
  fetchParse := fun u => if u = "https://a.com/x".toList then some loopPage else none

/-- The crawl state the non-termination scenario cycles on. -/
def loopFixed : CrawlState :=
  ⟨["https://a.com/x;".toList], ["https://a.com/x".toList]⟩

/-- Configuration of the cap-overflow scenario. -/
def capCfg : CrawlConfig where
  MAX_LIMIT := 1
  BATCH_SIZE := 20
  norm := normalize_url
  fetchParse := fun _ => none

/-- C4 counterexample.  First conjunct: starting from the single seed
`https://a.com/x` with `MAX_LIMIT = 2`, the crawl loop is active after every
number of iterations — `start_crawler` never terminates, because the fetched
page's link enqueues a URL (`https://a.com/x;`) that passes the enqueue
dedup check but re-normalises at dequeue to the already-visited URL, which
is then re-fetched and re-enqueues the same link forever.  Second conjunct:
with `MAX_LIMIT = 1` and two distinct seeds, one iteration leaves
`len(visited) = MAX_LIMIT + 1` — the drain loop's `<=` guard admits one
URL too many, so `|VisitedSet| ≤ MAX_LIMIT` is violated. -/
theorem crawler_nonterminating_and_cap_exceeded :
    (∀ n : Nat,
      crawlActive loopCfg ((crawlStep loopCfg)^[n] ⟨["https://a.com/x".toList], []⟩) = true)
    ∧ (crawlStep capCfg ⟨["https://a.com/a".toList, "https://a.com/b".toList], []⟩).visited.length
        = capCfg.MAX_LIMIT + 1 := by
  constructor
  · have h01 : crawlStep loopCfg ⟨["https://a.com/x".toList], []⟩ = loopFixed := by decide
    have h11 : crawlStep loopCfg loopFixed = loopFixed := by decide
    intro n
    cases n with
    | zero => decide
    | succ k =>
      rw [Function.iterate_succ_apply, h01, Function.iterate_fixed h11]
      decide
  · decide

/-- Number of frontier entries whose normalisation is already visited
(dequeuing such an entry cannot grow the visited set). -/
def deadCount (cfg : CrawlConfig) (frontier visited : List Str) : Nat :=
  (frontier.filter (fun u => decide (cfg.norm u ∈ visited))).length

/-- Termination measure of the crawl loop. -/
def crawlMeasure (cfg : CrawlConfig) (s : CrawlState) : Nat :=
  (cfg.MAX_LIMIT + 1 - s.visited.length) * (cfg.MAX_LIMIT + 1)
    + deadCount cfg s.frontier s.visited

theorem visInsert_eq_or (s : List Str) (v : Str) :
    (visInsert s v = s ∧ v ∈ s) ∨ (visInsert s v = s ++ [v] ∧ v ∉ s) := by
  unfold visInsert
  by_cases h : v ∈ s
  · exact Or.inl ⟨if_pos h, h⟩
  · exact Or.inr ⟨if_neg h, h⟩

theorem length_visInsert_le (s : List Str) (v : Str) :
    (visInsert s v).length ≤ s.length + 1 := by
  rcases visInsert_eq_or s v with ⟨h, _⟩ | ⟨h, _⟩ <;> simp [h]

theorem drainLoop_visited_le (cfg : CrawlConfig) (cnt : Nat)
    (frontier visited urls : List Str) (h : visited.length ≤ cfg.MAX_LIMIT + 1) :
    (drainLoop cfg cnt frontier visited urls).2.2.length ≤ cfg.MAX_LIMIT + 1 := by
  induction frontier generalizing cnt visited urls with
  | nil => simpa [drainLoop] using h
  | cons u rest ih =>
    simp only [drainLoop]
    split_ifs with hc
    · refine ih (cnt + 1) _ _ ?_
      exact (length_visInsert_le _ _).trans (by omega)
    · simpa using h

/-- Drain-loop characterisation: some prefix of length `k` of the frontier
is dequeued (normalised into the batch and the visited set), the rest is
left; the visited set only grows; if it did not grow, every dequeued entry
was already visited; and in an entry state satisfying the loop conditions
at least one entry is dequeued. -/
theorem drainLoop_spec (cfg : CrawlConfig) (cnt : Nat)
    (frontier visited urls : List Str) :
    ∃ k, k ≤ frontier.length
      ∧ (drainLoop cfg cnt frontier visited urls).2.1 = frontier.drop k
      ∧ (∃ extra, (drainLoop cfg cnt frontier visited urls).2.2 = visited ++ extra)
      ∧ ((drainLoop cfg cnt frontier visited urls).2.2 = visited →
          ∀ u ∈ frontier.take k, cfg.norm u ∈ visited)
      ∧ (frontier ≠ [] → cnt ≤ cfg.BATCH_SIZE → visited.length ≤ cfg.MAX_LIMIT → 1 ≤ k) := by
  induction frontier generalizing cnt visited urls with
  | nil =>
    exact ⟨0, by simp, by simp [drainLoop], ⟨[], by simp [drainLoop]⟩, by simp,
      fun h => absurd rfl h⟩
  | cons u rest ih =>
    by_cases hc : cnt + 1 ≤ cfg.BATCH_SIZE + 1 ∧ visited.length ≤ cfg.MAX_LIMIT
    · have hc' : cnt ≤ cfg.BATCH_SIZE ∧ visited.length ≤ cfg.MAX_LIMIT := by omega
      obtain ⟨k', hk'le, hfr, ⟨extra', hvis⟩, hdead, _⟩ :=
        ih (cnt + 1) (visInsert visited (cfg.norm u)) (urls ++ [cfg.norm u])
      have hstep : drainLoop cfg cnt (u :: rest) visited urls
          = drainLoop cfg (cnt + 1) rest (visInsert visited (cfg.norm u))
              (urls ++ [cfg.norm u]) := by
        simp only [drainLoop, if_pos hc']
      refine ⟨k' + 1, by simpa using Nat.succ_le_succ hk'le, ?_, ?_, ?_,
        fun _ _ _ => Nat.succ_le_succ (Nat.zero_le _)⟩
      · rw [hstep, List.drop_succ_cons]
        exact hfr
      · rcases visInsert_eq_or visited (cfg.norm u) with ⟨he, _⟩ | ⟨he, _⟩
        · exact ⟨extra', by rw [hstep, hvis, he]⟩
        · refine ⟨cfg.norm u :: extra', ?_⟩
          rw [hstep, hvis, he]
          simp
      · intro hsame
        rw [hstep] at hsame
        rcases visInsert_eq_or visited (cfg.norm u) with ⟨he, hmem⟩ | ⟨he, hmem⟩
        · have hvis' : (drainLoop cfg (cnt + 1) rest (visInsert visited (cfg.norm u))
              (urls ++ [cfg.norm u])).2.2 = visited ++ extra' := by
            rw [hvis, he]
          have hextra : extra' = [] := by
            have hlen := congrArg List.length (hvis'.symm.trans hsame)
            simp only [List.length_append] at hlen
            exact List.eq_nil_of_length_eq_zero (by omega)
          intro x hx
          rcases List.mem_cons.mp (by simpa [List.take_succ_cons] using hx) with h1 | h1
          · exact h1 ▸ hmem
          · have hD : (drainLoop cfg (cnt + 1) rest (visInsert visited (cfg.norm u))
                (urls ++ [cfg.norm u])).2.2 = visInsert visited (cfg.norm u) := by
              rw [hvis, hextra]
              simp
            have hd := hdead hD x h1
            rwa [he] at hd
        · exfalso
          have hvis' : (drainLoop cfg (cnt + 1) rest (visInsert visited (cfg.norm u))
              (urls ++ [cfg.norm u])).2.2 = visited ++ [cfg.norm u] ++ extra' := by
            rw [hvis, he]
          have hlen := congrArg List.length (hvis'.symm.trans hsame)
          simp at hlen
    · have hc' : ¬(cnt ≤ cfg.BATCH_SIZE ∧ visited.length ≤ cfg.MAX_LIMIT) := by omega
      have hstep : drainLoop cfg cnt (u :: rest) visited urls
          = (urls, u :: rest, visited) := by
        simp only [drainLoop, if_neg hc']
      exact ⟨0, by simp, by simp [hstep], ⟨[], by simp [hstep]⟩, by simp,
        fun _ hcnt hvl => absurd ⟨hcnt, hvl⟩ hc'⟩

theorem deadCount_le_length (cfg : CrawlConfig) (frontier visited : List Str) :
    deadCount cfg frontier visited ≤ frontier.length :=
  List.length_filter_le _ _

theorem deadCount_append (cfg : CrawlConfig) (a b visited : List Str) :
    deadCount cfg (a ++ b) visited = deadCount cfg a visited + deadCount cfg b visited := by
  simp [deadCount, List.filter_append]

theorem deadCount_drop (cfg : CrawlConfig) (frontier visited : List Str) (k : Nat)
    (hk : k ≤ frontier.length)
    (hall : ∀ u ∈ frontier.take k, cfg.norm u ∈ visited) :
    deadCount cfg (frontier.drop k) visited + k = deadCount cfg frontier visited := by
  conv_rhs => rw [← List.take_append_drop k frontier]
  rw [deadCount_append]
  have htake : deadCount cfg (frontier.take k) visited = k := by
    unfold deadCount
    rw [List.filter_eq_self.mpr]
    · simp [List.length_take]
      omega
    · intro u hu
      simpa using hall u hu
  omega

theorem add_urls_fold_dead (cfg : CrawlConfig)
    (hidem : ∀ u, cfg.norm (cfg.norm u) = cfg.norm u)
    (l frontier visited : List Str) :
    deadCount cfg
      (l.foldl (fun fr url => let n := cfg.norm url; if n ∈ visited then fr else fr ++ [n])
        frontier) visited
      = deadCount cfg frontier visited := by
  induction l generalizing frontier with
  | nil => rfl
  | cons x rest ih =>
    simp only [List.foldl_cons]
    by_cases hx : cfg.norm x ∈ visited
    · simpa [hx] using ih frontier
    · have h1 : deadCount cfg (frontier ++ [cfg.norm x]) visited
          = deadCount cfg frontier visited := by
        rw [deadCount_append]
        have : deadCount cfg [cfg.norm x] visited = 0 := by
          simp [deadCount, hidem x, hx]
        omega
      simpa [hx] using (ih (frontier ++ [cfg.norm x])).trans h1

theorem deadCount_add_urls (cfg : CrawlConfig)
    (hidem : ∀ u, cfg.norm (cfg.norm u) = cfg.norm u)
    (urls frontier visited : List Str) :
    deadCount cfg (_add_urls_in_queue cfg urls frontier visited) visited
      = deadCount cfg frontier visited := by
  simp only [_add_urls_in_queue]
  split_ifs with h
  · rfl
  · exact add_urls_fold_dead cfg hidem _ frontier visited

theorem deadCount_process (cfg : CrawlConfig)
    (hidem : ∀ u, cfg.norm (cfg.norm u) = cfg.norm u)
    (batch frontier visited : List Str) :
    deadCount cfg (processResponses cfg batch frontier visited).1 visited
      = deadCount cfg frontier visited := by
  unfold processResponses
  split_ifs with h
  · rfl
  · have : ∀ acc : List Str × List CrawlEffect,
        deadCount cfg
          ((batch.foldl
            (fun acc url =>
              match cfg.fetchParse url with
              | none => acc
              | some m =>
                (_add_urls_in_queue cfg m.links acc.1 visited, acc.2 ++ [.jsonlWrite m]))
            acc).1) visited
          = deadCount cfg acc.1 visited := by
      induction batch with
      | nil => exact fun acc => rfl
      | cons url rest ih =>
        intro acc
        simp only [List.foldl_cons]
        cases hf : cfg.fetchParse url with
        | none => simp only [hf]; exact ih acc
        | some m =>
          simp only [hf]
          exact (ih _).trans (deadCount_add_urls cfg hidem m.links acc.1 visited)
    exact this (frontier, [])

theorem add_urls_fold_length (cfg : CrawlConfig) (l frontier visited : List Str) :
    (l.foldl (fun fr url => let n := cfg.norm url; if n ∈ visited then fr else fr ++ [n])
        frontier).length
      ≤ frontier.length + l.length := by
  induction l generalizing frontier with
  | nil => simp
  | cons x rest ih =>
    simp only [List.foldl_cons, List.length_cons]
    by_cases hx : cfg.norm x ∈ visited
    · simp only [hx, if_pos]
      exact (ih frontier).trans (by omega)
    · simp only [hx, if_neg, not_false_iff]
      exact (ih _).trans (by simp; omega)

theorem add_urls_length_le (cfg : CrawlConfig) (urls frontier visited : List Str) :
    (_add_urls_in_queue cfg urls frontier visited).length
      ≤ max frontier.length cfg.MAX_LIMIT := by
  simp only [_add_urls_in_queue]
  split_ifs with h
  · exact le_max_left _ _
  · refine (add_urls_fold_length cfg _ frontier visited).trans ?_
    have htake : (urls.take (min urls.length (cfg.MAX_LIMIT - frontier.length))).length
        ≤ cfg.MAX_LIMIT - frontier.length := by
      simp [List.length_take]
    have : frontier.length ≤ cfg.MAX_LIMIT := by omega
    refine le_trans (Nat.add_le_add_left htake _) ?_
    refine le_trans (by omega : frontier.length + (cfg.MAX_LIMIT - frontier.length)
      ≤ cfg.MAX_LIMIT) (le_max_right _ _)

theorem processResponses_length_le (cfg : CrawlConfig) (batch frontier visited : List Str) :
    (processResponses cfg batch frontier visited).1.length
      ≤ max frontier.length cfg.MAX_LIMIT := by
  unfold processResponses
  split_ifs with h
  · exact le_max_left _ _
  · have : ∀ acc : List Str × List CrawlEffect,
        acc.1.length ≤ max frontier.length cfg.MAX_LIMIT →
        ((batch.foldl
          (fun acc url =>
            match cfg.fetchParse url with
            | none => acc
            | some m =>
              (_add_urls_in_queue cfg m.links acc.1 visited, acc.2 ++ [.jsonlWrite m]))
          acc).1).length ≤ max frontier.length cfg.MAX_LIMIT := by
      induction batch with
      | nil => exact fun acc hacc => hacc
      | cons url rest ih =>
        intro acc hacc
        simp only [List.foldl_cons]
        cases hf : cfg.fetchParse url with
        | none => simp only [hf]; exact ih acc hacc
        | some m =>
          simp only [hf]
          refine ih _ ?_
          refine (add_urls_length_le cfg m.links acc.1 visited).trans ?_
          exact max_le (hacc.trans le_rfl) (le_max_right _ _)
    exact this (frontier, []) (le_max_left _ _)

theorem crawlActive_iff (cfg : CrawlConfig) (s : CrawlState) :
    crawlActive cfg s = true ↔ s.frontier ≠ [] ∧ s.visited.length < cfg.MAX_LIMIT := by
  simp [crawlActive, List.isEmpty_iff]

theorem crawlStep_active_eq (cfg : CrawlConfig) (s : CrawlState)
    (ha : crawlActive cfg s = true) :
    crawlStep cfg s
      = ⟨(processResponses cfg (drainLoop cfg 1 s.frontier s.visited []).1
            (drainLoop cfg 1 s.frontier s.visited []).2.1
            (drainLoop cfg 1 s.frontier s.visited []).2.2).1,
         (drainLoop cfg 1 s.frontier s.visited []).2.2⟩ := by
  simp [crawlStep, crawlIter, ha]

theorem crawlStep_inactive_eq (cfg : CrawlConfig) (s : CrawlState)
    (ha : crawlActive cfg s = false) :
    crawlStep cfg s = s := by
  simp [crawlStep, crawlIter, ha]

theorem drainLoop_frontier_length_le (cfg : CrawlConfig) (cnt : Nat)
    (frontier visited urls : List Str) :
    (drainLoop cfg cnt frontier visited urls).2.1.length ≤ frontier.length := by
  obtain ⟨k, _, hfr, _, _, _⟩ := drainLoop_spec cfg cnt frontier visited urls
  rw [hfr]
  simp [List.length_drop]

theorem crawlStep_visited_le (cfg : CrawlConfig) (s : CrawlState)
    (h : s.visited.length ≤ cfg.MAX_LIMIT + 1) :
    (crawlStep cfg s).visited.length ≤ cfg.MAX_LIMIT + 1 := by
  cases ha : crawlActive cfg s with
  | true =>
    rw [crawlStep_active_eq cfg s ha]
    exact drainLoop_visited_le cfg 1 s.frontier s.visited [] h
  | false =>
    rw [crawlStep_inactive_eq cfg s ha]
    exact h

theorem crawlStep_frontier_le (cfg : CrawlConfig) (s : CrawlState)
    (h : s.frontier.length ≤ cfg.MAX_LIMIT) :
    (crawlStep cfg s).frontier.length ≤ cfg.MAX_LIMIT := by
  cases ha : crawlActive cfg s with
  | true =>
    rw [crawlStep_active_eq cfg s ha]
    refine (processResponses_length_le cfg _ _ _).trans ?_
    exact max_le ((drainLoop_frontier_length_le cfg 1 _ _ _).trans h) le_rfl
  | false =>
    rw [crawlStep_inactive_eq cfg s ha]
    exact h

theorem crawlMeasure_decrease (cfg : CrawlConfig) (s : CrawlState)
    (hB : 1 ≤ cfg.BATCH_SIZE)
    (hidem : ∀ u, cfg.norm (cfg.norm u) = cfg.norm u)
    (hfr : s.frontier.length ≤ cfg.MAX_LIMIT)
    (ha : crawlActive cfg s = true) :
    crawlMeasure cfg (crawlStep cfg s) < crawlMeasure cfg s := by
  obtain ⟨hne, hlt⟩ := (crawlActive_iff cfg s).mp ha
  rw [crawlStep_active_eq cfg s ha]
  obtain ⟨k, hk, hfr', ⟨extra, hvis⟩, hdead, hk1⟩ :=
    drainLoop_spec cfg 1 s.frontier s.visited []
  have hk1' : 1 ≤ k := hk1 hne hB (le_of_lt hlt)
  cases extra with
  | nil =>
    have hsame : (drainLoop cfg 1 s.frontier s.visited []).2.2 = s.visited := by
      rw [hvis]
      simp
    simp only [crawlMeasure, hsame]
    have h1 : deadCount cfg
        (processResponses cfg (drainLoop cfg 1 s.frontier s.visited []).1
          (drainLoop cfg 1 s.frontier s.visited []).2.1 s.visited).1 s.visited
        = deadCount cfg (drainLoop cfg 1 s.frontier s.visited []).2.1 s.visited :=
      deadCount_process cfg hidem _ _ _
    have h2 : deadCount cfg (drainLoop cfg 1 s.frontier s.visited []).2.1 s.visited + k
        = deadCount cfg s.frontier s.visited := by
      rw [hfr']
      exact deadCount_drop cfg s.frontier s.visited k hk (hdead hsame)
    omega
  | cons e es =>
    have hgrow : s.visited.length < (drainLoop cfg 1 s.frontier s.visited []).2.2.length := by
      rw [hvis]
      simp
    have hle : (drainLoop cfg 1 s.frontier s.visited []).2.2.length ≤ cfg.MAX_LIMIT + 1 :=
      drainLoop_visited_le cfg 1 _ _ _ (by omega)
    have hdead' : deadCount cfg
        (processResponses cfg (drainLoop cfg 1 s.frontier s.visited []).1
          (drainLoop cfg 1 s.frontier s.visited []).2.1
          (drainLoop cfg 1 s.frontier s.visited []).2.2).1
        (drainLoop cfg 1 s.frontier s.visited []).2.2 ≤ cfg.MAX_LIMIT := by
      refine (deadCount_le_length cfg _ _).trans ?_
      refine (processResponses_length_le cfg _ _ _).trans ?_
      exact max_le ((drainLoop_frontier_length_le cfg 1 _ _ _).trans hfr) le_rfl
    simp only [crawlMeasure]
    have hA : cfg.MAX_LIMIT + 1 - (drainLoop cfg 1 s.frontier s.visited []).2.2.length
        ≤ (cfg.MAX_LIMIT + 1 - s.visited.length) - 1 := by omega
    have hP : (cfg.MAX_LIMIT + 1 - (drainLoop cfg 1 s.frontier s.visited []).2.2.length)
          * (cfg.MAX_LIMIT + 1)
        ≤ ((cfg.MAX_LIMIT + 1 - s.visited.length) - 1) * (cfg.MAX_LIMIT + 1) :=
      Nat.mul_le_mul_right _ hA
    have hQ : ((cfg.MAX_LIMIT + 1 - s.visited.length) - 1) * (cfg.MAX_LIMIT + 1)
        = (cfg.MAX_LIMIT + 1 - s.visited.length) * (cfg.MAX_LIMIT + 1)
          - (cfg.MAX_LIMIT + 1) := by
      rw [Nat.sub_mul, one_mul]
    have hR : cfg.MAX_LIMIT + 1
        ≤ (cfg.MAX_LIMIT + 1 - s.visited.length) * (cfg.MAX_LIMIT + 1) := by
      have h1' : 1 ≤ cfg.MAX_LIMIT + 1 - s.visited.length := by omega
      calc cfg.MAX_LIMIT + 1 = 1 * (cfg.MAX_LIMIT + 1) := (one_mul _).symm
      _ ≤ _ := Nat.mul_le_mul_right _ h1'
    omega

theorem crawl_terminates_aux (cfg : CrawlConfig)
    (hB : 1 ≤ cfg.BATCH_SIZE)
    (hidem : ∀ u, cfg.norm (cfg.norm u) = cfg.norm u) :
    ∀ (N : Nat) (s : CrawlState), s.frontier.length ≤ cfg.MAX_LIMIT →
      crawlMeasure cfg s ≤ N →
      ∃ n, crawlActive cfg ((crawlStep cfg)^[n] s) = false := by
  intro N
  induction N with
  | zero =>
    intro s hfr hm
    cases ha : crawlActive cfg s with
    | false => exact ⟨0, ha⟩
    | true =>
      exfalso
      have := crawlMeasure_decrease cfg s hB hidem hfr ha
      omega
  | succ N ih =>
    intro s hfr hm
    cases ha : crawlActive cfg s with
    | false => exact ⟨0, ha⟩
    | true =>
      have hdec := crawlMeasure_decrease cfg s hB hidem hfr ha
      obtain ⟨n, hn⟩ := ih (crawlStep cfg s) (crawlStep_frontier_le cfg s hfr) (by omega)
      exact ⟨n + 1, by rwa [Function.iterate_succ_apply]⟩

/-- C4 amended.  First conjunct: if the crawl starts with at most
`MAX_LIMIT + 1` visited URLs (in particular with the empty visited set),
then at every iteration `|VisitedSet| ≤ MAX_LIMIT + 1` — the shipped drain
loop's `<=` guard allows the cap to be exceeded by exactly one.  Second
conjunct: when `BATCH_SIZE ≥ 1`, the seed frontier respects the frontier
capacity, and the URL normaliser is idempotent (which the shipped
`normalize_url` is not, see `normalize_url_not_idempotent`), the crawl loop
terminates for every fetch oracle. -/
theorem crawler_visited_cap_and_termination (cfg : CrawlConfig) (s0 : CrawlState) :
    (s0.visited.length ≤ cfg.MAX_LIMIT + 1 →
      ∀ n, ((crawlStep cfg)^[n] s0).visited.length ≤ cfg.MAX_LIMIT + 1)
    ∧ (1 ≤ cfg.BATCH_SIZE → (∀ u, cfg.norm (cfg.norm u) = cfg.norm u) →
        s0.frontier.length ≤ cfg.MAX_LIMIT →
        ∃ n, crawlActive cfg ((crawlStep cfg)^[n] s0) = false) := by
  constructor
  · intro h0 n
    induction n with
    | zero => simpa using h0
    | succ n ih =>
      rw [Function.iterate_succ_apply']
      exact crawlStep_visited_le cfg _ ih
  · intro hB hidem hfr
    exact crawl_terminates_aux cfg hB hidem (crawlMeasure cfg s0) s0 hfr le_rfl

/-- Configuration used by the C4 amended-claim witness: identity
normalisation (trivially idempotent) and no fetchable pages. -/
def idCfg : CrawlConfig where
  MAX_LIMIT := 1
  BATCH_SIZE := 1
  norm := id
  fetchParse := fun _ => none

/-- Witness for C4's amended claim at a concrete configuration: the visited
cap holds after one iteration and the loop reaches an inactive state. -/
theorem crawler_visited_cap_and_termination_witness :
    ((crawlStep idCfg)^[1] ⟨["a".toList], []⟩).visited.length ≤ idCfg.MAX_LIMIT + 1
    ∧ ∃ n, crawlActive idCfg ((crawlStep idCfg)^[n] ⟨["a".toList], []⟩) = false := by
  have h := crawler_visited_cap_and_termination idCfg ⟨["a".toList], []⟩
  exact ⟨h.1 (by decide) 1, h.2 (by decide) (fun u => rfl) (by decide)⟩

/-! ## Character-level lemmas for the URL normaliser -/

theorem toNat_ofNat_valid (n : Nat) (h : n.isValidChar) : (Char.ofNat n).toNat = n := by
  rw [Char.ofNat, dif_pos h]
  rfl

theorem toLower_eq_ite (c : Char) :
    Char.toLower c
      = if c.toNat ≥ 65 ∧ c.toNat ≤ 90 then Char.ofNat (c.toNat + 32) else c := rfl

theorem toLower_toNat_not_upper (c : Char) :
    ¬((Char.toLower c).toNat ≥ 65 ∧ (Char.toLower c).toNat ≤ 90) := by
  rw [toLower_eq_ite]
  split_ifs with h
  · rw [toNat_ofNat_valid _ (Or.inl (by omega))]
    omega
  · omega

theorem toLower_toLower (c : Char) : Char.toLower (Char.toLower c) = Char.toLower c := by
  rw [toLower_eq_ite (Char.toLower c), if_neg (toLower_toNat_not_upper c)]

theorem toLower_eq_of_lt97 {c d : Char} (h : Char.toLower c = d) (hd : d.toNat < 97) :
    c = d := by
  rw [toLower_eq_ite] at h
  split_ifs at h with h1
  · exfalso
    have := congrArg Char.toNat h
    rw [toNat_ofNat_valid _ (Or.inl (by omega))] at this
    omega
  · exact h

theorem isAlpha_eq_toNat (c : Char) :
    c.isAlpha
      = ((decide (65 ≤ c.toNat) && decide (c.toNat ≤ 90))
          || (decide (97 ≤ c.toNat) && decide (c.toNat ≤ 122))) := by
  simp [Char.isAlpha, Char.isUpper, Char.isLower, Char.le_def, UInt32.le_def,
    BitVec.le_def, Char.toNat]
  rfl

theorem toLower_isAlpha (c : Char) : (Char.toLower c).isAlpha = c.isAlpha := by
  by_cases h : c.toNat ≥ 65 ∧ c.toNat ≤ 90
  · have h2 : (Char.toLower c).toNat = c.toNat + 32 := by
      rw [toLower_eq_ite, if_pos h, toNat_ofNat_valid _ (Or.inl (by omega))]
    rw [isAlpha_eq_toNat, isAlpha_eq_toNat, h2]
    refine Bool.eq_iff_iff.mpr ?_
    simp only [Bool.or_eq_true, Bool.and_eq_true, decide_eq_true_eq]
    omega
  · rw [toLower_eq_ite, if_neg h]

theorem isDigit_eq_toNat (c : Char) :
    c.isDigit = (decide (48 ≤ c.toNat) && decide (c.toNat ≤ 57)) := by
  simp [Char.isDigit, Char.le_def, UInt32.le_def, BitVec.le_def, Char.toNat]
  rfl

theorem toLower_isSchemeChar (c : Char) :
    isSchemeChar (Char.toLower c) = isSchemeChar c := by
  by_cases h : c.toNat ≥ 65 ∧ c.toNat ≤ 90
  · have h2 : (Char.toLower c).toNat = c.toNat + 32 := by
      rw [toLower_eq_ite, if_pos h, toNat_ofNat_valid _ (Or.inl (by omega))]
    have ha : (Char.toLower c).isAlpha = true := by
      rw [isAlpha_eq_toNat, h2]
      simp only [Bool.or_eq_true, Bool.and_eq_true, decide_eq_true_eq]
      omega
    have hb : c.isAlpha = true := by
      rw [isAlpha_eq_toNat]
      simp only [Bool.or_eq_true, Bool.and_eq_true, decide_eq_true_eq]
      omega
    simp [isSchemeChar, ha, hb]
  · rw [toLower_eq_ite, if_neg h]

theorem isPySpace_toNat (c : Char) (h : isPySpace c = true) : c.toNat < 97 := by
  simp only [isPySpace, Bool.or_eq_true, decide_eq_true_eq] at h
  rcases h with ((((h | h) | h) | h) | h) | h <;> subst h <;> decide

theorem toLower_isPySpace (c : Char) (h : isPySpace (Char.toLower c) = true) :
    isPySpace c = true := by
  have := toLower_eq_of_lt97 (c := c) rfl (isPySpace_toNat _ h)
  rwa [this]

theorem lowerStr_idem (s : Str) : lowerStr (lowerStr s) = lowerStr s := by
  simp only [lowerStr, List.map_map]
  exact List.map_congr_left (fun c _ => toLower_toLower c)

theorem mem_lowerStr {c : Char} {s : Str} (h : c ∈ lowerStr s) :
    ∃ c₀ ∈ s, c = Char.toLower c₀ := by
  obtain ⟨c₀, hc₀, he⟩ := List.mem_map.mp h
  exact ⟨c₀, hc₀, he.symm⟩

theorem dropWhile_eq_self_of (p : Char → Bool) (s : Str)
    (h : ∀ c ∈ s, p c = false) : s.dropWhile p = s := by
  cases s with
  | nil => rfl
  | cons c cs =>
    rw [List.dropWhile_cons, if_neg]
    simp [h c (List.mem_cons_self _ _)]

theorem pyStrip_eq_self (s : Str) (h : ∀ c ∈ s, isPySpace c = false) : pyStrip s = s := by
  unfold pyStrip
  rw [dropWhile_eq_self_of _ _ h,
    dropWhile_eq_self_of _ _ (fun c hc => h c (List.mem_reverse.mp hc)),
    List.reverse_reverse]

theorem mem_pyStrip {c : Char} {s : Str} (h : c ∈ pyStrip s) : c ∈ s := by
  unfold pyStrip at h
  have h1 := List.mem_reverse.mp h
  have h2 := (List.dropWhile_sublist _).subset h1
  have h3 := List.mem_reverse.mp h2
  exact (List.dropWhile_sublist _).subset h3

theorem removeUnsafe_eq_self (s : Str) (h : ∀ c ∈ s, isPySpace c = false) :
    removeUnsafe s = s := by
  unfold removeUnsafe
  refine List.filter_eq_self.mpr (fun c hc => ?_)
  have := h c hc
  simp only [isPySpace, Bool.or_eq_false_iff, decide_eq_false_iff_not] at this
  simp only [Bool.not_eq_true', Bool.or_eq_false_iff, decide_eq_false_iff_not]
  exact ⟨⟨this.1.1.1.1.2, this.1.1.2⟩, this.1.1.1.2⟩

theorem mem_removeUnsafe {c : Char} {s : Str} (h : c ∈ removeUnsafe s) : c ∈ s :=
  (List.filter_sublist _).subset h

theorem mem_rstripSlash {c : Char} {s : Str} (h : c ∈ rstripSlash s) : c ∈ s := by
  unfold rstripSlash at h
  have h1 := List.mem_reverse.mp h
  have h2 := (List.dropWhile_sublist _).subset h1
  exact List.mem_reverse.mp h2

theorem rstripSlash_decomp (s : Str) :
    ∃ t, s = rstripSlash s ++ t ∧ ∀ c ∈ t, c = '/' := by
  refine ⟨(s.reverse.takeWhile (· = '/')).reverse, ?_, ?_⟩
  · unfold rstripSlash
    conv_lhs => rw [← s.reverse_reverse]
    conv_lhs => rw [← List.takeWhile_append_dropWhile (p := (· = '/')) (l := s.reverse)]
    rw [List.reverse_append]
  · intro c hc
    have := List.mem_takeWhile_imp (List.mem_reverse.mp hc)
    simpa using this

theorem head?_dropWhile_false (p : Char → Bool) (s : Str) (c : Char)
    (h : (s.dropWhile p).head? = some c) : p c = false := by
  induction s with
  | nil => simp at h
  | cons x xs ih =>
    rw [List.dropWhile_cons] at h
    split_ifs at h with hx
    · exact ih h
    · simp only [List.head?_cons, Option.some.injEq] at h
      rw [← h]
      simpa using hx

theorem rstripSlash_getLast? (s : Str) (c : Char)
    (h : (rstripSlash s).getLast? = some c) : c ≠ '/' := by
  unfold rstripSlash at h
  rw [List.getLast?_reverse] at h
  have := head?_dropWhile_false _ _ _ h
  simpa using this

theorem dropWhile_dropWhile (p : Char → Bool) (s : Str) :
    (s.dropWhile p).dropWhile p = s.dropWhile p := by
  induction s with
  | nil => rfl
  | cons x xs ih =>
    rw [List.dropWhile_cons]
    split_ifs with hx
    · exact ih
    · rw [List.dropWhile_cons, if_neg hx]

theorem rstripSlash_idem (s : Str) : rstripSlash (rstripSlash s) = rstripSlash s := by
  unfold rstripSlash
  rw [List.reverse_reverse, dropWhile_dropWhile]

theorem rstripSlash_ne_slash (s : Str) : rstripSlash s ≠ ['/'] := by
  intro h
  have := rstripSlash_getLast? s '/' (by rw [h]; rfl)
  exact this rfl

/-! ## First-occurrence and split lemmas -/

theorem findIdx?_of_all_false {p : Char → Bool} {l : Str} (h : ∀ x ∈ l, p x = false) :
    l.findIdx? p = none := List.findIdx?_eq_none_iff.mpr h

theorem findIdx?_append_first {p : Char → Bool} (a : Str) (x : Char) (b : Str)
    (ha : ∀ c ∈ a, p c = false) (hx : p x = true) :
    (a ++ x :: b).findIdx? p = some a.length := by
  rw [List.findIdx?_append, findIdx?_of_all_false ha]
  simp [List.findIdx?_cons, hx]

theorem splitAtFirst_not_mem {l : Str} {c : Char} (h : ∀ x ∈ l, x ≠ c) :
    splitAtFirst l c = (l, []) := by
  unfold splitAtFirst
  rw [findIdx?_of_all_false (fun x hx => by simpa using h x hx)]

theorem splitAtFirst_append {a b : Str} {c : Char} (ha : ∀ x ∈ a, x ≠ c) :
    splitAtFirst (a ++ c :: b) c = (a, b) := by
  unfold splitAtFirst
  rw [findIdx?_append_first a c b (fun x hx => by simpa using ha x hx) (by simp)]
  have h1 : (a ++ c :: b).take a.length = a := List.take_left a (c :: b)
  have h2 : (a ++ c :: b).drop (a.length + 1) = b := by
    have he : a ++ c :: b = (a ++ [c]) ++ b := by simp
    rw [he, List.drop_left']
    simp
  simp only [h1, h2]

theorem contains_eq_false_iff (l : Str) (c : Char) :
    l.contains c = false ↔ ∀ x ∈ l, x ≠ c := by
  rw [← Bool.not_eq_true, List.contains_iff_exists_mem_beq]
  simp only [beq_iff_eq, not_exists]
  constructor
  · intro h x hx he
    exact h x ⟨hx, he.symm⟩
  · rintro h x ⟨hx, he⟩
    exact h x hx he.symm

theorem splitAtFirst_reconstruct {l : Str} {c : Char} (h : c ∈ l) :
    l = (splitAtFirst l c).1 ++ c :: (splitAtFirst l c).2 := by
  unfold splitAtFirst
  cases hf : l.findIdx? (· = c) with
  | none =>
    exfalso
    have := List.findIdx?_eq_none_iff.mp hf c h
    simp at this
  | some i =>
    obtain ⟨hlt, hp, _⟩ := List.findIdx?_eq_some_iff_getElem.mp hf
    have hli : l[i] = c := by simpa using hp
    conv_lhs => rw [← List.take_append_drop i l]
    simp only
    congr 1
    rw [List.drop_eq_getElem_cons hlt, hli]

theorem splitAtFirst_fst_not {l : Str} (c : Char) :
    ∀ x ∈ (splitAtFirst l c).1, x ≠ c := by
  unfold splitAtFirst
  cases hf : l.findIdx? (· = c) with
  | none =>
    intro x hx
    have := List.findIdx?_eq_none_iff.mp hf x hx
    simpa using this
  | some i =>
    obtain ⟨hlt, _, hmin⟩ := List.findIdx?_eq_some_iff_getElem.mp hf
    intro x hx
    simp only at hx
    obtain ⟨j, hj, hxe⟩ := List.mem_iff_getElem.mp hx
    have hjlt : j < i := by
      have := hj
      simp [List.length_take] at this
      omega
    have := hmin j hjlt
    rw [List.getElem_take] at hxe
    rw [← hxe]
    simpa using this

theorem splitAtFirst_fst_isPre (l : Str) (c : Char) :
    (splitAtFirst l c).1 <+: l := by
  unfold splitAtFirst
  cases hf : l.findIdx? (· = c) with
  | none => exact List.prefix_refl l
  | some i => exact List.take_prefix i l

theorem splitAtFirst_snd_subset {l : Str} {c : Char} {x : Char}
    (h : x ∈ (splitAtFirst l c).2) : x ∈ l := by
  unfold splitAtFirst at h
  cases hf : l.findIdx? (· = c) with
  | none =>
    rw [hf] at h
    simp at h
  | some i =>
    rw [hf] at h
    exact List.drop_subset _ _ h

/-! ## Scheme and netloc splitting lemmas -/

theorem headD_append_of_ne_nil {s : Str} (r : Str) (d : Char) (hs : s ≠ []) :
    (s ++ r).headD d = s.headD d := by
  cases s with
  | nil => exact absurd rfl hs
  | cons c cs => rfl

theorem schemeSplit_none_of_head {u : Str} (h : (u.headD ' ').isAlpha = false) :
    schemeSplit u = none := by
  unfold schemeSplit
  cases hf : u.findIdx? (· = ':') with
  | none => rfl
  | some i =>
    dsimp only
    rw [if_neg]
    intro hc
    rw [h] at hc
    simpa using hc.2.1

theorem schemeSplit_none_of_noColon {u : Str} (h : ∀ c ∈ u, c ≠ ':') :
    schemeSplit u = none := by
  unfold schemeSplit
  rw [findIdx?_of_all_false (fun x hx => by simpa using h x hx)]

theorem schemeSplit_build (s r : Str) (hs : s ≠ [])
    (hhead : (s.headD ' ').isAlpha = true) (hall : s.all isSchemeChar = true) :
    schemeSplit (s ++ ':' :: r) = some (lowerStr s, r) := by
  have hnc : ∀ c ∈ s, ¬(c = ':') := by
    intro c hc he
    have := List.all_eq_true.mp hall c hc
    rw [he] at this
    simp [isSchemeChar] at this
  unfold schemeSplit
  rw [findIdx?_append_first s ':' r (fun c hc => by simpa using hnc c hc) (by simp)]
  dsimp only
  rw [if_pos]
  · have h1 : (s ++ ':' :: r).take s.length = s := List.take_left s (':' :: r)
    have h2 : (s ++ ':' :: r).drop (s.length + 1) = r := by
      have he : s ++ ':' :: r = (s ++ [':']) ++ r := by simp
      rw [he, List.drop_left']
      simp
    simp only [h1, h2]
  · refine ⟨List.length_pos.mpr hs, ?_, ?_⟩
    · rw [headD_append_of_ne_nil _ _ hs]
      exact hhead
    · rw [List.take_left s (':' :: r)]
      exact hall

theorem take_headD {u : Str} {i : Nat} (hi : 0 < i) (d : Char) :
    (u.take i).headD d = u.headD d := by
  cases u with
  | nil => simp
  | cons c cs =>
    cases i with
    | zero => omega
    | succ j => simp [List.take_succ_cons]

theorem headD_lowerStr (s : Str) (d : Char) (hd : Char.toLower d = d) :
    (lowerStr s).headD d = Char.toLower (s.headD d) := by
  cases s with
  | nil => simp [lowerStr, hd]
  | cons c cs => rfl

theorem schemeSplit_eq_some {u s r : Str} (h : schemeSplit u = some (s, r)) :
    s ≠ [] ∧ s.all isSchemeChar = true ∧ (s.headD ' ').isAlpha = true
      ∧ lowerStr s = s
      ∧ ∃ i, u.findIdx? (· = ':') = some i ∧ 0 < i
          ∧ s = lowerStr (u.take i) ∧ r = u.drop (i + 1) := by
  unfold schemeSplit at h
  cases hf : u.findIdx? (· = ':') with
  | none =>
    rw [hf] at h
    simp at h
  | some i =>
    rw [hf] at h
    dsimp only at h
    split_ifs at h with hc
    · obtain ⟨h0, hα, hall⟩ := hc
      simp only [Option.some.injEq, Prod.mk.injEq] at h
      obtain ⟨hse, hre⟩ := h
      have hilt : i < u.length := by
        obtain ⟨hlt, _, _⟩ := List.findIdx?_eq_some_iff_getElem.mp hf
        exact hlt
      have htne : u.take i ≠ [] := by
        intro he
        have hlen := congrArg List.length he
        simp only [List.length_take, List.length_nil] at hlen
        omega
      have hsne : s ≠ [] := by
        rw [← hse]
        intro he
        refine htne (List.eq_nil_of_length_eq_zero ?_)
        have := congrArg List.length he
        simpa [lowerStr] using this
      refine ⟨hsne, ?_, ?_, ?_, i, rfl, h0, hse.symm, hre.symm⟩
      · rw [← hse]
        refine List.all_eq_true.mpr (fun c hc => ?_)
        obtain ⟨c₀, hc₀, he⟩ := mem_lowerStr hc
        rw [he, toLower_isSchemeChar]
        exact List.all_eq_true.mp hall c₀ hc₀
      · rw [← hse, headD_lowerStr _ _ (by decide), toLower_isAlpha, take_headD h0]
        exact hα
      · rw [← hse]
        exact lowerStr_idem _

theorem splitnetloc_build (nl rest : Str)
    (hnl : ∀ c ∈ nl, (c = '/' || c = '?' || c = '#') = false)
    (hrest : rest = [] ∨ ((rest.headD ' ') = '/' ∨ (rest.headD ' ') = '?' ∨ (rest.headD ' ') = '#')) :
    splitnetloc ('/' :: '/' :: (nl ++ rest)) = (nl, rest) := by
  unfold splitnetloc
  simp only [List.drop_succ_cons, List.drop_zero]
  cases rest with
  | nil =>
    rw [findIdx?_of_all_false (fun c hc => hnl c (by simpa using hc))]
    simp
  | cons c cs =>
    have hstop : (c = '/' || c = '?' || c = '#') = true := by
      rcases hrest with he | hh
      · simp at he
      · rcases hh with h | h | h <;> simp at h <;> simp [h]
    rw [findIdx?_append_first nl c cs hnl hstop]
    have h1 : (nl ++ c :: cs).take nl.length = nl := List.take_left nl (c :: cs)
    have h2 : (nl ++ c :: cs).drop nl.length = c :: cs := List.drop_left nl (c :: cs)
    simp only [h1, h2]

/-! ## Round trip: `urlsplit` of a `urlunsplit`-assembled URL -/

/-- The query suffix that `urlunsplit` appends. -/
def qpart (qry : Str) : Str := if qry ≠ [] then '?' :: qry else []

theorem contains_eq_true_of_mem {l : Str} {c : Char} (h : c ∈ l) :
    l.contains c = true :=
  List.contains_iff_exists_mem_beq.mpr ⟨c, h, by simp⟩

theorem take2_headD {pth : Str} (h : pth.take 2 = ['/', '/']) : pth.headD ' ' = '/' := by
  cases pth with
  | nil => simp at h
  | cons c cs =>
    cases cs with
    | nil => simp at h
    | cons d ds =>
      simp only [List.take_succ_cons, List.take, List.cons.injEq] at h
      simp [h.1]

theorem urlunsplit_eq (sch nl pth qry : Str) :
    urlunsplit sch nl pth qry []
      = (if sch ≠ [] then
          sch ++ ':' ::
            (if nl ≠ [] ∨ (pth ≠ [] ∧ pth.take 2 = ['/', '/']) then
              '/' :: '/' :: (nl ++ (if pth ≠ [] ∧ pth.take 1 ≠ ['/'] then '/' :: pth else pth))
            else pth)
          ++ qpart qry
        else
          (if nl ≠ [] ∨ (pth ≠ [] ∧ pth.take 2 = ['/', '/']) then
            '/' :: '/' :: (nl ++ (if pth ≠ [] ∧ pth.take 1 ≠ ['/'] then '/' :: pth else pth))
          else pth)
          ++ qpart qry) := by
  unfold urlunsplit qpart
  by_cases hb : nl ≠ [] ∨ (pth ≠ [] ∧ pth.take 2 = ['/', '/'])
  · by_cases hs : sch ≠ [] <;> by_cases hq : qry ≠ [] <;>
      simp [hb, hs, hq, List.append_assoc]
  · by_cases hs : sch ≠ [] <;> by_cases hq : qry ≠ [] <;>
      simp [hb, hs, hq, List.append_assoc]


theorem mem_qpart {c : Char} {qry : Str} (h : c ∈ qpart qry) : c = '?' ∨ c ∈ qry := by
  unfold qpart at h
  split_ifs at h with hq
  · rcases List.mem_cons.mp h with h | h
    · exact Or.inl h
    · exact Or.inr h
  · simp at h

theorem glue_no_space (sch nl pth qry u : Str)
    (hsub : ∀ c ∈ u, c ∈ sch ∨ c ∈ nl ∨ c ∈ pth ∨ c ∈ qpart qry ∨ c = ':' ∨ c = '/')
    (g7 : ∀ c ∈ sch ++ nl ++ pth ++ qry, isPySpace c = false) :
    ∀ c ∈ u, isPySpace c = false := by
  intro c hc
  have hmem : (c ∈ sch ∨ c ∈ nl ∨ c ∈ pth ∨ c ∈ qry) → isPySpace c = false := by
    intro h
    refine g7 c ?_
    simp only [List.mem_append]
    tauto
  rcases hsub c hc with h | h | h | h | h | h
  · exact hmem (Or.inl h)
  · exact hmem (Or.inr (Or.inl h))
  · exact hmem (Or.inr (Or.inr (Or.inl h)))
  · rcases mem_qpart h with h | h
    · subst h; decide
    · exact hmem (Or.inr (Or.inr (Or.inr h)))
  · subst h; decide
  · subst h; decide

theorem glue_sub_A1 (sch nl pth qry : Str) :
    ∀ c ∈ sch ++ ':' :: ('/' :: '/' :: (nl ++ (pth ++ qpart qry))),
      c ∈ sch ∨ c ∈ nl ∨ c ∈ pth ∨ c ∈ qpart qry ∨ c = ':' ∨ c = '/' := by
  intro c hc
  simp only [List.mem_append, List.mem_cons] at hc
  tauto

theorem glue_sub_A2 (nl pth qry : Str) :
    ∀ c ∈ ('/' :: '/' :: (nl ++ (pth ++ qpart qry)) : Str),
      c ∈ ([] : Str) ∨ c ∈ nl ∨ c ∈ pth ∨ c ∈ qpart qry ∨ c = ':' ∨ c = '/' := by
  intro c hc
  simp only [List.mem_cons, List.mem_append] at hc
  tauto

theorem glue_sub_B1 (sch pth qry : Str) :
    ∀ c ∈ sch ++ ':' :: (pth ++ qpart qry),
      c ∈ sch ∨ c ∈ ([] : Str) ∨ c ∈ pth ∨ c ∈ qpart qry ∨ c = ':' ∨ c = '/' := by
  intro c hc
  simp only [List.mem_append, List.mem_cons] at hc
  tauto

theorem glue_sub_B2 (pth qry : Str) :
    ∀ c ∈ pth ++ qpart qry,
      c ∈ ([] : Str) ∨ c ∈ ([] : Str) ∨ c ∈ pth ∨ c ∈ qpart qry ∨ c = ':' ∨ c = '/' := by
  intro c hc
  simp only [List.mem_append] at hc
  tauto

theorem take2_append_ne (pth qry : Str) (hb : ¬(pth ≠ [] ∧ pth.take 2 = ['/', '/'])) :
    (pth ++ qpart qry).take 2 ≠ ['/', '/'] := by
  intro he
  cases pth with
  | nil =>
    rw [List.nil_append] at he
    unfold qpart at he
    split_ifs at he with hq
    · have h2 : ('?' :: qry).take 2 = '?' :: qry.take 1 := rfl
      rw [h2] at he
      rcases List.cons_eq_cons.mp he with ⟨h1, _⟩
      exact absurd h1 (by decide)
    · simp at he
  | cons c cs =>
    cases cs with
    | nil =>
      unfold qpart at he
      split_ifs at he with hq
      · have h2 : (([c] : Str) ++ '?' :: qry).take 2 = [c, '?'] := rfl
        rw [h2] at he
        rcases List.cons_eq_cons.mp he with ⟨_, h3⟩
        rcases List.cons_eq_cons.mp h3 with ⟨h4, _⟩
        exact absurd h4 (by decide)
      · have h2 : (([c] : Str) ++ ([] : Str)).take 2 = [c] := rfl
        rw [h2] at he
        rcases List.cons_eq_cons.mp he with ⟨_, h3⟩
        exact (List.cons_ne_nil _ _) h3.symm
    | cons d ds =>
      have h2 : ((c :: d :: ds) ++ qpart qry).take 2 = [c, d] := rfl
      rw [h2] at he
      refine hb ⟨List.cons_ne_nil _ _, ?_⟩
      rw [show ((c :: d :: ds) : Str).take 2 = [c, d] from rfl]
      exact he

theorem qpart_contains_hash (pth qry : Str)
    (g3 : ∀ c ∈ pth, c ≠ '?' ∧ c ≠ '#') (g4 : ∀ c ∈ qry, c ≠ '#') :
    (pth ++ qpart qry).contains '#' = false := by
  rw [contains_eq_false_iff]
  intro x hx
  rcases List.mem_append.mp hx with hx | hx
  · exact (g3 x hx).2
  · rcases mem_qpart hx with hx | hx
    · subst hx; decide
    · exact g4 x hx

/-- The netloc / fragment / query stages of `urlsplit`, after the scheme has
been split off. -/
def splitRest (scheme url1 : Str) : SplitResult :=
  let nr := if url1.take 2 = ['/', '/'] then splitnetloc url1 else ([], url1)
  let netloc := nr.1
  let url2 := nr.2
  let fr := if url2.contains '#' then splitAtFirst url2 '#' else (url2, [])
  let url3 := fr.1
  let fragment := fr.2
  let qr := if url3.contains '?' then splitAtFirst url3 '?' else (url3, [])
  ⟨scheme, netloc, qr.1, qr.2, fragment⟩

theorem urlsplit_eq_splitRest_some (u sch rest : Str)
    (hclean : removeUnsafe u = u) (hs : schemeSplit u = some (sch, rest)) :
    urlsplit u = splitRest sch rest := by
  simp only [urlsplit, splitRest]
  rw [hclean, hs]

theorem urlsplit_eq_splitRest_none (u : Str)
    (hclean : removeUnsafe u = u) (hs : schemeSplit u = none) :
    urlsplit u = splitRest [] u := by
  simp only [urlsplit, splitRest]
  rw [hclean, hs]

theorem splitRest_netloc (sch nl pth qry : Str)
    (g2 : ∀ c ∈ nl, (c = '/' || c = '?' || c = '#') = false)
    (g3 : ∀ c ∈ pth, c ≠ '?' ∧ c ≠ '#')
    (g4 : ∀ c ∈ qry, c ≠ '#')
    (hpth : pth = [] ∨ pth.headD ' ' = '/') :
    splitRest sch ('/' :: '/' :: (nl ++ (pth ++ qpart qry))) = ⟨sch, nl, pth, qry, []⟩ := by
  have hrest : pth ++ qpart qry = [] ∨
      ((pth ++ qpart qry).headD ' ' = '/' ∨ (pth ++ qpart qry).headD ' ' = '?' ∨
        (pth ++ qpart qry).headD ' ' = '#') := by
    rcases hpth with hpe | hph
    · subst hpe
      rw [List.nil_append]
      by_cases hq : qry = []
      · subst hq
        left
        rfl
      · right; right; left
        rw [show qpart qry = '?' :: qry by simp [qpart, hq]]
        rfl
    · cases pth with
      | nil => exact absurd hph (by decide)
      | cons c cs =>
        right; left
        rw [headD_append_of_ne_nil (qpart qry) ' ' (List.cons_ne_nil c cs)]
        exact hph
  simp only [splitRest]
  rw [if_pos (show (('/' : Char) :: '/' :: (nl ++ (pth ++ qpart qry))).take 2 = ['/', '/']
    from rfl)]
  rw [splitnetloc_build nl (pth ++ qpart qry) g2 hrest]
  dsimp only
  have hne1 : ¬((pth ++ qpart qry).contains '#' = true) := by
    rw [qpart_contains_hash pth qry g3 g4]
    decide
  rw [if_neg hne1]
  dsimp only
  by_cases hq : qry = []
  · subst hq
    rw [show qpart ([] : Str) = [] from rfl, List.append_nil]
    have hne2 : ¬(pth.contains '?' = true) := by
      rw [(contains_eq_false_iff pth '?').mpr (fun x hx => (g3 x hx).1)]
      decide
    rw [if_neg hne2]
  · rw [show qpart qry = '?' :: qry by simp [qpart, hq]]
    have hpos : (pth ++ '?' :: qry).contains '?' = true := contains_eq_true_of_mem (by simp)
    rw [if_pos hpos, splitAtFirst_append (fun x hx => (g3 x hx).1)]

theorem splitRest_nonetloc (sch pth qry : Str)
    (hb : ¬(pth ≠ [] ∧ pth.take 2 = ['/', '/']))
    (g3 : ∀ c ∈ pth, c ≠ '?' ∧ c ≠ '#')
    (g4 : ∀ c ∈ qry, c ≠ '#') :
    splitRest sch (pth ++ qpart qry) = ⟨sch, [], pth, qry, []⟩ := by
  simp only [splitRest]
  rw [if_neg (take2_append_ne pth qry hb)]
  dsimp only
  have hne1 : ¬((pth ++ qpart qry).contains '#' = true) := by
    rw [qpart_contains_hash pth qry g3 g4]
    decide
  rw [if_neg hne1]
  dsimp only
  by_cases hq : qry = []
  · subst hq
    rw [show qpart ([] : Str) = [] from rfl, List.append_nil]
    have hne2 : ¬(pth.contains '?' = true) := by
      rw [(contains_eq_false_iff pth '?').mpr (fun x hx => (g3 x hx).1)]
      decide
    rw [if_neg hne2]
  · rw [show qpart qry = '?' :: qry by simp [qpart, hq]]
    have hpos : (pth ++ '?' :: qry).contains '?' = true := contains_eq_true_of_mem (by simp)
    rw [if_pos hpos, splitAtFirst_append (fun x hx => (g3 x hx).1)]

theorem urlsplit_urlunsplit (sch nl pth qry : Str)
    (g1 : sch.all isSchemeChar = true)
    (g1h : sch ≠ [] → (sch.headD ' ').isAlpha = true)
    (g1l : lowerStr sch = sch)
    (g2 : ∀ c ∈ nl, (c = '/' || c = '?' || c = '#') = false)
    (g3 : ∀ c ∈ pth, c ≠ '?' ∧ c ≠ '#')
    (g4 : ∀ c ∈ qry, c ≠ '#')
    (g5 : nl ≠ [] → (pth = [] ∨ pth.headD ' ' = '/'))
    (g6 : sch = [] → nl = [] → ¬(pth ≠ [] ∧ pth.take 2 = ['/', '/']) →
        schemeSplit (pth ++ qpart qry) = none)
    (g7 : ∀ c ∈ sch ++ nl ++ pth ++ qry, isPySpace c = false) :
    urlsplit (urlunsplit sch nl pth qry []) = ⟨sch, nl, pth, qry, []⟩ := by
  rw [urlunsplit_eq]
  by_cases hb : nl ≠ [] ∨ (pth ≠ [] ∧ pth.take 2 = ['/', '/'])
  · have hpth : pth = [] ∨ pth.headD ' ' = '/' := by
      rcases hb with hnl | ⟨_, h2⟩
      · exact g5 hnl
      · exact Or.inr (take2_headD h2)
    have hnopre : ¬(pth ≠ [] ∧ pth.take 1 ≠ ['/']) := by
      rintro ⟨hne, h1⟩
      rcases hpth with he | hh
      · exact hne he
      · refine h1 ?_
        cases pth with
        | nil => exact absurd rfl hne
        | cons c cs =>
          have hc : c = '/' := by simpa using hh
          rw [show ((c :: cs) : Str).take 1 = [c] from rfl, hc]
    simp only [if_pos hb, if_neg hnopre]
    by_cases hs : sch ≠ []
    · rw [if_pos hs]
      have hu : (sch ++ ':' :: ('/' :: '/' :: (nl ++ pth))) ++ qpart qry
          = sch ++ ':' :: ('/' :: '/' :: (nl ++ (pth ++ qpart qry))) := by
        simp [List.append_assoc]
      rw [hu]
      have hmem := glue_no_space sch nl pth qry _ (glue_sub_A1 sch nl pth qry) g7
      have hss : schemeSplit (sch ++ ':' :: ('/' :: '/' :: (nl ++ (pth ++ qpart qry))))
          = some (sch, '/' :: '/' :: (nl ++ (pth ++ qpart qry))) := by
        rw [schemeSplit_build sch _ hs (g1h hs) g1, g1l]
      rw [urlsplit_eq_splitRest_some _ _ _ (removeUnsafe_eq_self _ hmem) hss]
      exact splitRest_netloc sch nl pth qry g2 g3 g4 hpth
    · rw [if_neg hs]
      push_neg at hs
      subst hs
      have hu : ('/' :: '/' :: (nl ++ pth)) ++ qpart qry
          = '/' :: '/' :: (nl ++ (pth ++ qpart qry)) := by
        simp [List.append_assoc]
      rw [hu]
      have hmem := glue_no_space [] nl pth qry _ (glue_sub_A2 nl pth qry) g7
      have hss : schemeSplit ('/' :: '/' :: (nl ++ (pth ++ qpart qry))) = none :=
        schemeSplit_none_of_head rfl
      rw [urlsplit_eq_splitRest_none _ (removeUnsafe_eq_self _ hmem) hss]
      exact splitRest_netloc [] nl pth qry g2 g3 g4 hpth
  · have hnl : nl = [] := by
      by_contra hnl
      exact hb (Or.inl hnl)
    have hb2 : ¬(pth ≠ [] ∧ pth.take 2 = ['/', '/']) := fun h => hb (Or.inr h)
    subst hnl
    simp only [if_neg hb]
    by_cases hs : sch ≠ []
    · rw [if_pos hs]
      have hu : (sch ++ ':' :: pth) ++ qpart qry = sch ++ ':' :: (pth ++ qpart qry) := by
        simp [List.append_assoc]
      rw [hu]
      have hmem := glue_no_space sch [] pth qry _ (glue_sub_B1 sch pth qry) g7
      have hss : schemeSplit (sch ++ ':' :: (pth ++ qpart qry))
          = some (sch, pth ++ qpart qry) := by
        rw [schemeSplit_build sch _ hs (g1h hs) g1, g1l]
      rw [urlsplit_eq_splitRest_some _ _ _ (removeUnsafe_eq_self _ hmem) hss]
      exact splitRest_nonetloc sch pth qry hb2 g3 g4
    · rw [if_neg hs]
      push_neg at hs
      subst hs
      have hmem := glue_no_space [] [] pth qry _ (glue_sub_B2 pth qry) g7
      have hss : schemeSplit (pth ++ qpart qry) = none := g6 rfl rfl hb2
      rw [urlsplit_eq_splitRest_none _ (removeUnsafe_eq_self _ hmem) hss]
      exact splitRest_nonetloc [] pth qry hb2 g3 g4

/-! ## Component properties of `urlsplit` output -/

theorem headD_mem {l : Str} (d : Char) (h : l ≠ []) : l.headD d ∈ l := by
  cases l with
  | nil => exact absurd rfl h
  | cons a as => exact List.mem_cons_self _ _

theorem condSplit_fst_not (l : Str) (c : Char) :
    ∀ x ∈ (if l.contains c then splitAtFirst l c else (l, [])).1, x ≠ c := by
  split_ifs with h
  · exact splitAtFirst_fst_not c
  · intro x hx he
    subst he
    rw [contains_eq_true_of_mem hx] at h
    exact h rfl

theorem condSplit_fst_isPre (l : Str) (c : Char) :
    (if l.contains c then splitAtFirst l c else (l, [])).1 <+: l := by
  split_ifs with h
  · exact splitAtFirst_fst_isPre l c
  · exact List.prefix_refl l

theorem condSplit_snd_subset (l : Str) (c : Char) {x : Char}
    (h : x ∈ (if l.contains c then splitAtFirst l c else (l, [])).2) : x ∈ l := by
  revert h
  split_ifs with hc
  · exact splitAtFirst_snd_subset
  · intro h
    simp at h

theorem splitnetloc_fst_no_stop (url : Str) :
    ∀ c ∈ (splitnetloc url).1, (c = '/' || c = '?' || c = '#') = false := by
  intro c hc
  simp only [splitnetloc] at hc
  cases hf : (url.drop 2).findIdx? (fun c => c = '/' || c = '?' || c = '#') with
  | none =>
    rw [hf] at hc
    dsimp only at hc
    exact List.findIdx?_eq_none_iff.mp hf c ((List.take_sublist _ _).subset hc)
  | some j =>
    rw [hf] at hc
    dsimp only at hc
    obtain ⟨_, _, hmin⟩ := List.findIdx?_eq_some_iff_getElem.mp hf
    obtain ⟨k, hk, hke⟩ := List.mem_iff_getElem.mp hc
    have hkj : k < j := by
      rw [List.length_take] at hk
      omega
    have := hmin k hkj
    rw [List.getElem_take] at hke
    rw [← hke]
    simpa using this

theorem splitnetloc_fst_subset {c : Char} (url : Str) (h : c ∈ (splitnetloc url).1) :
    c ∈ url := by
  simp only [splitnetloc] at h
  exact (List.drop_subset _ _) ((List.take_subset _ _) h)

theorem splitnetloc_snd_subset {c : Char} (url : Str) (h : c ∈ (splitnetloc url).2) :
    c ∈ url := by
  simp only [splitnetloc] at h
  exact (List.drop_subset _ _) ((List.drop_subset _ _) h)

theorem splitnetloc_snd_cases (url : Str) :
    (splitnetloc url).2 = [] ∨ ((splitnetloc url).2.headD ' ' = '/' ∨
      (splitnetloc url).2.headD ' ' = '?' ∨ (splitnetloc url).2.headD ' ' = '#') := by
  simp only [splitnetloc]
  cases hf : (url.drop 2).findIdx? (fun c => c = '/' || c = '?' || c = '#') with
  | none =>
    left
    dsimp only
    exact List.drop_length _
  | some j =>
    right
    dsimp only
    obtain ⟨hlt, hp, _⟩ := List.findIdx?_eq_some_iff_getElem.mp hf
    have hd : (url.drop 2).drop j = (url.drop 2)[j] :: (url.drop 2).drop (j + 1) :=
      List.drop_eq_getElem_cons hlt
    rw [hd]
    have hp' : ((url.drop 2)[j] = '/' || (url.drop 2)[j] = '?' || (url.drop 2)[j] = '#')
        = true := by simpa using hp
    rcases Bool.or_eq_true_iff.mp hp' with h | h
    · rcases Bool.or_eq_true_iff.mp h with h | h
      · left
        simpa using h
      · right
        left
        simpa using h
    · right
      right
      simpa using h

theorem splitRest_scheme (sch url1 : Str) : (splitRest sch url1).scheme = sch := rfl

theorem splitRest_fragment_subset (sch url1 : Str) :
    ∀ c ∈ (splitRest sch url1).fragment, c ∈ url1 := by
  intro c hc
  simp only [splitRest] at hc
  have h2 : c ∈ (if url1.take 2 = ['/', '/'] then splitnetloc url1 else ([], url1)).2 :=
    condSplit_snd_subset _ _ hc
  revert h2
  split_ifs with h
  · exact fun h2 => splitnetloc_snd_subset url1 h2
  · exact fun h2 => h2

theorem splitRest_netloc_no_stop (sch url1 : Str) :
    ∀ c ∈ (splitRest sch url1).netloc, (c = '/' || c = '?' || c = '#') = false := by
  intro c hc
  simp only [splitRest] at hc
  revert hc
  split_ifs with h2
  · exact fun hc => splitnetloc_fst_no_stop url1 c hc
  · intro hc
    simp at hc

theorem splitRest_netloc_subset (sch url1 : Str) :
    ∀ c ∈ (splitRest sch url1).netloc, c ∈ url1 := by
  intro c hc
  simp only [splitRest] at hc
  revert hc
  split_ifs with h2
  · exact fun hc => splitnetloc_fst_subset url1 hc
  · intro hc
    simp at hc

theorem splitRest_path_no_qh (sch url1 : Str) :
    ∀ c ∈ (splitRest sch url1).path, c ≠ '?' ∧ c ≠ '#' := by
  intro c hc
  simp only [splitRest] at hc
  have h1 := condSplit_fst_not _ _ c hc
  have h3 := (condSplit_fst_isPre _ _).subset hc
  have h2 := condSplit_fst_not _ _ c h3
  exact ⟨h1, h2⟩

theorem splitRest_path_isPre (sch url1 : Str) :
    (splitRest sch url1).path
      <+: (if url1.take 2 = ['/', '/'] then splitnetloc url1 else ([], url1)).2 := by
  simp only [splitRest]
  exact (condSplit_fst_isPre _ _).trans (condSplit_fst_isPre _ _)

theorem splitRest_path_subset (sch url1 : Str) :
    ∀ c ∈ (splitRest sch url1).path, c ∈ url1 := by
  intro c hc
  have hc2 := (splitRest_path_isPre sch url1).subset hc
  revert hc2
  split_ifs with h2
  · exact fun hc2 => splitnetloc_snd_subset url1 hc2
  · exact fun hc2 => hc2

theorem splitRest_query_no_h (sch url1 : Str) :
    ∀ c ∈ (splitRest sch url1).query, c ≠ '#' := by
  intro c hc
  simp only [splitRest] at hc
  have h3 := condSplit_snd_subset _ _ hc
  exact condSplit_fst_not _ _ c h3

theorem splitRest_query_subset (sch url1 : Str) :
    ∀ c ∈ (splitRest sch url1).query, c ∈ url1 := by
  intro c hc
  simp only [splitRest] at hc
  have h3 := condSplit_snd_subset _ _ hc
  have hc3 : c ∈ (if url1.take 2 = ['/', '/'] then splitnetloc url1 else ([], url1)).2 :=
    (condSplit_fst_isPre _ _).subset h3
  revert hc3
  split_ifs with h2
  · exact fun hc3 => splitnetloc_snd_subset url1 hc3
  · exact fun hc3 => hc3

theorem splitRest_path_head (sch url1 : Str) (h2 : url1.take 2 = ['/', '/']) :
    (splitRest sch url1).path = [] ∨ (splitRest sch url1).path.headD ' ' = '/' := by
  by_cases hp : (splitRest sch url1).path = []
  · exact Or.inl hp
  right
  have hpre : (splitRest sch url1).path <+: (splitnetloc url1).2 := by
    have h := splitRest_path_isPre sch url1
    rwa [if_pos h2] at h
  obtain ⟨r, hr⟩ := hpre
  have hhead : (splitRest sch url1).path.headD ' ' = (splitnetloc url1).2.headD ' ' := by
    rw [← hr, headD_append_of_ne_nil _ _ hp]
  have hmem := headD_mem ' ' hp
  have hq := splitRest_path_no_qh sch url1 _ hmem
  rcases splitnetloc_snd_cases url1 with hnil | hh
  · rw [hnil] at hr
    exact absurd (List.append_eq_nil.mp hr).1 hp
  rcases hh with h | h | h
  · rw [hhead]
    exact h
  · exact absurd (hhead.trans h) hq.1
  · exact absurd (hhead.trans h) hq.2

theorem splitRest_netloc_path (sch url1 : Str) (h : (splitRest sch url1).netloc ≠ []) :
    (splitRest sch url1).path = [] ∨ (splitRest sch url1).path.headD ' ' = '/' := by
  have h2 : url1.take 2 = ['/', '/'] := by
    by_contra h2
    apply h
    simp only [splitRest]
    rw [if_neg h2]
  exact splitRest_path_head sch url1 h2

theorem splitRest_path_isPre_of_no_netloc (sch url1 : Str)
    (h2 : ¬(url1.take 2 = ['/', '/'])) : (splitRest sch url1).path <+: url1 := by
  have h := splitRest_path_isPre sch url1
  rwa [if_neg h2] at h

/-! ## Transfer lemmas for the second parse -/

theorem lowerStr_no_stop {l : Str} (h : ∀ c ∈ l, (c = '/' || c = '?' || c = '#') = false) :
    ∀ c ∈ lowerStr l, (c = '/' || c = '?' || c = '#') = false := by
  intro c hc
  obtain ⟨c₀, hc₀, he⟩ := mem_lowerStr hc
  subst he
  have h0 := h c₀ hc₀
  simp only [Bool.or_eq_false_iff, decide_eq_false_iff_not] at h0 ⊢
  exact ⟨⟨fun he => h0.1.1 (toLower_eq_of_lt97 he (by decide)),
    fun he => h0.1.2 (toLower_eq_of_lt97 he (by decide))⟩,
    fun he => h0.2 (toLower_eq_of_lt97 he (by decide))⟩

theorem qpart_cases (qry : Str) : qpart qry = [] ∨ qpart qry = '?' :: qry := by
  unfold qpart
  split_ifs with h
  · exact Or.inr rfl
  · exact Or.inl rfl

theorem schemeSplit_qpart_none (qry : Str) : schemeSplit (qpart qry) = none := by
  rcases qpart_cases qry with h | h <;> rw [h]
  · rfl
  · exact schemeSplit_none_of_head rfl

theorem rstripSlash_isPre (s : Str) : rstripSlash s <+: s := by
  obtain ⟨t, ht, _⟩ := rstripSlash_decomp s
  exact ⟨t, ht.symm⟩

theorem rstripSlash_headD (s : Str) (d : Char) (h : rstripSlash s ≠ []) :
    (rstripSlash s).headD d = s.headD d := by
  obtain ⟨t, ht, _⟩ := rstripSlash_decomp s
  conv_rhs => rw [ht]
  rw [headD_append_of_ne_nil _ _ h]

theorem schemeSplit_prefix_none (C q w : Str)
    (hpre : C <+: w) (hw : schemeSplit w = none)
    (hq : q = [] ∨ ∃ D, q = '?' :: D) :
    schemeSplit (C ++ q) = none := by
  obtain ⟨r, hr⟩ := hpre
  unfold schemeSplit
  cases hf : (C ++ q).findIdx? (· = ':') with
  | none => rfl
  | some i =>
    dsimp only
    obtain ⟨hilt, hpi, hmin⟩ := List.findIdx?_eq_some_iff_getElem.mp hf
    have hpi' : (C ++ q)[i] = ':' := by simpa using hpi
    have hguard : ¬(0 < i ∧ ((C ++ q).headD ' ').isAlpha = true
        ∧ ((C ++ q).take i).all isSchemeChar = true) := by
      by_cases hlen : i < C.length
      · have hCi : C[i] = ':' := by
          rw [List.getElem_append_left hlen] at hpi'
          exact hpi'
        have hCne : C ≠ [] := by
          intro he
          rw [he] at hlen
          simp at hlen
        have hwf : w.findIdx? (· = ':') = some i := by
          rw [← hr]
          apply List.findIdx?_eq_some_iff_getElem.mpr
          have hiw : i < (C ++ r).length := by
            rw [List.length_append]
            omega
          refine ⟨hiw, ?_, ?_⟩
          · rw [List.getElem_append_left hlen]
            simp [hCi]
          · intro j hj
            have := hmin j hj
            rw [List.getElem_append_left (by omega : j < C.length)]
            rw [List.getElem_append_left (by omega : j < C.length)] at this
            exact this
        unfold schemeSplit at hw
        rw [hwf] at hw
        dsimp only at hw
        rintro ⟨hi0, hhead, hall⟩
        split_ifs at hw with hg
        apply hg
        refine ⟨hi0, ?_, ?_⟩
        · rw [← hr, headD_append_of_ne_nil _ _ hCne]
          rw [headD_append_of_ne_nil _ _ hCne] at hhead
          exact hhead
        · rw [← hr, List.take_append_of_le_length (le_of_lt hlen)]
          rw [List.take_append_of_le_length (le_of_lt hlen)] at hall
          exact hall
      · push_neg at hlen
        rcases hq with hqe | ⟨D, hqe⟩
        · subst hqe
          have : i < C.length := by simpa using hilt
          omega
        · subst hqe
          have hne : i ≠ C.length := by
            intro he
            subst he
            rw [List.getElem_append_right (le_refl _)] at hpi'
            simp only [Nat.sub_self, List.getElem_cons_zero] at hpi'
            exact absurd hpi' (by decide)
          have hlt2 : C.length < i := lt_of_le_of_ne hlen (Ne.symm hne)
          rintro ⟨hi0, hhead, hall⟩
          have hmemq : '?' ∈ (C ++ '?' :: D).take i := by
            refine List.mem_iff_getElem.mpr ⟨C.length, ?_, ?_⟩
            · rw [List.length_take]
              refine lt_min hlt2 ?_
              rw [List.length_append, List.length_cons]
              omega
            · rw [List.getElem_take]
              rw [List.getElem_append_right (le_refl _)]
              simp
          have := List.all_eq_true.mp hall '?' hmemq
          exact absurd this (by decide)
    rw [if_neg hguard]

theorem mem_urlunsplit_core {c : Char} (B C : Str)
    (h : c ∈ (if B ≠ [] ∨ (C ≠ [] ∧ C.take 2 = ['/', '/']) then
        '/' :: '/' :: (B ++ (if C ≠ [] ∧ C.take 1 ≠ ['/'] then '/' :: C else C))
      else C)) :
    c ∈ B ∨ c ∈ C ∨ c = '/' := by
  by_cases hb : B ≠ [] ∨ (C ≠ [] ∧ C.take 2 = ['/', '/'])
  · rw [if_pos hb] at h
    by_cases hc2 : C ≠ [] ∧ C.take 1 ≠ ['/']
    · rw [if_pos hc2] at h
      simp only [List.mem_cons, List.mem_append] at h
      tauto
    · rw [if_neg hc2] at h
      simp only [List.mem_cons, List.mem_append] at h
      tauto
  · rw [if_neg hb] at h
    tauto

theorem mem_urlunsplit {c : Char} (A B C D : Str)
    (h : c ∈ urlunsplit A B C D []) :
    c ∈ A ∨ c ∈ B ∨ c ∈ C ∨ c ∈ D ∨ c = ':' ∨ c = '/' ∨ c = '?' := by
  rw [urlunsplit_eq] at h
  by_cases hs : A ≠ []
  · rw [if_pos hs] at h
    rcases List.mem_append.mp h with h | h
    · rcases List.mem_append.mp h with h | h
      · tauto
      · rcases List.mem_cons.mp h with h | h
        · tauto
        · have := mem_urlunsplit_core B C h
          tauto
    · rcases mem_qpart h with h | h <;> tauto
  · rw [if_neg hs] at h
    rcases List.mem_append.mp h with h | h
    · have := mem_urlunsplit_core B C h
      tauto
    · rcases mem_qpart h with h | h <;> tauto

/-! ## `normalize_url` in terms of its parse -/

theorem schemeChar_not_space {c : Char} (h : isSchemeChar c = true) :
    isPySpace c = false := by
  cases hb : isPySpace c
  · rfl
  simp only [isPySpace, Bool.or_eq_true, decide_eq_true_eq] at hb
  rcases hb with ((((h1 | h1) | h1) | h1) | h1) | h1 <;> subst h1 <;>
    exact absurd h (by decide)

theorem normalize_url_eq_of (u : Str) (S : SplitResult)
    (hstrip : pyStrip u = u)
    (hsplit : urlsplit u = S)
    (hsemi : S.path.contains ';' = false) :
    normalize_url u
      = urlunsplit (lowerStr S.scheme) (lowerStr S.netloc)
          (if S.path = ['/'] then ['/'] else rstripSlash S.path) S.query [] := by
  simp only [normalize_url, urlparse, urlunparse]
  rw [hstrip, hsplit]
  have hne : ¬(S.path.contains ';' = true) := by
    rw [hsemi]
    decide
  rw [if_neg hne]
  dsimp only
  rw [if_neg (fun h => h rfl)]

theorem normalize_second_fixed (s N C Q : Str)
    (hall : s.all isSchemeChar = true)
    (hhead : s ≠ [] → (s.headD ' ').isAlpha = true)
    (hlow : lowerStr s = s)
    (hN : ∀ c ∈ N, (c = '/' || c = '?' || c = '#') = false)
    (hC : ∀ c ∈ C, c ≠ '?' ∧ c ≠ '#')
    (hQ : ∀ c ∈ Q, c ≠ '#')
    (hNC : N ≠ [] → (C = [] ∨ C.headD ' ' = '/'))
    (hg6 : s = [] → N = [] → C ≠ [] → C.headD ' ' ≠ '/' →
        schemeSplit (C ++ qpart Q) = none)
    (hsemi : ∀ c ∈ C, c ≠ ';')
    (hCfix : (if C = ['/'] then (['/'] : Str) else rstripSlash C) = C)
    (hsp : (∀ c ∈ s, isPySpace c = false) ∧ (∀ c ∈ N, isPySpace c = false)
      ∧ (∀ c ∈ C, isPySpace c = false) ∧ (∀ c ∈ Q, isPySpace c = false)) :
    normalize_url (urlunsplit s (lowerStr N) C Q [])
      = urlunsplit s (lowerStr N) C Q [] := by
  obtain ⟨hs_sp, hN_sp, hC_sp, hQ_sp⟩ := hsp
  have hB := lowerStr_no_stop hN
  have hB_sp : ∀ c ∈ lowerStr N, isPySpace c = false := by
    intro c hc
    obtain ⟨c₀, hc₀, he⟩ := mem_lowerStr hc
    subst he
    cases hb : isPySpace (Char.toLower c₀)
    · rfl
    · have h1 := toLower_isPySpace c₀ hb
      rw [hN_sp c₀ hc₀] at h1
      exact Bool.noConfusion h1
  have hv_sp : ∀ c ∈ urlunsplit s (lowerStr N) C Q [], isPySpace c = false := by
    intro c hc
    rcases mem_urlunsplit _ _ _ _ hc with h | h | h | h | h | h | h
    · exact hs_sp c h
    · exact hB_sp c h
    · exact hC_sp c h
    · exact hQ_sp c h
    · subst h; decide
    · subst h; decide
    · subst h; decide
  have hstrip2 : pyStrip (urlunsplit s (lowerStr N) C Q [])
      = urlunsplit s (lowerStr N) C Q [] := pyStrip_eq_self _ hv_sp
  have hsplit2 : urlsplit (urlunsplit s (lowerStr N) C Q [])
      = ⟨s, lowerStr N, C, Q, []⟩ := by
    refine urlsplit_urlunsplit s (lowerStr N) C Q hall hhead hlow hB hC hQ ?_ ?_ ?_
    · intro hBne
      apply hNC
      intro hN0
      apply hBne
      rw [hN0]
      rfl
    · intro hs0 hB0 hnb
      have hN0 : N = [] := by
        cases N with
        | nil => rfl
        | cons a as => exact absurd hB0 (by simp [lowerStr])
      by_cases hC0 : C = []
      · rw [hC0, List.nil_append]
        exact schemeSplit_qpart_none Q
      · by_cases hCh : C.headD ' ' = '/'
        · apply schemeSplit_none_of_head
          rw [headD_append_of_ne_nil _ _ hC0, hCh]
          rfl
        · exact hg6 hs0 hN0 hC0 hCh
    · intro c hc
      rcases List.mem_append.mp hc with h | h
      · rcases List.mem_append.mp h with h | h
        · rcases List.mem_append.mp h with h | h
          · exact hs_sp c h
          · exact hB_sp c h
        · exact hC_sp c h
      · exact hQ_sp c h
  have hsemiC : C.contains ';' = false := (contains_eq_false_iff C ';').mpr hsemi
  rw [normalize_url_eq_of _ _ hstrip2 hsplit2 hsemiC]
  dsimp only
  rw [hlow, lowerStr_idem, hCfix]

/-- C9 (amended): `normalize_url` is idempotent on clean URLs — strings with
no `';'`, no whitespace, no `'['`/`']'` and only ASCII characters.  (The last
two hypotheses scope the claim to the inputs on which this embedding models
CPython's `urlsplit`, whose bracketed-host and non-ASCII-netloc error checks
are omitted here.) -/
theorem normalize_url_idempotent_on_clean (u : Str)
    (hsc : ∀ c ∈ u, c ≠ ';')
    (hsp : ∀ c ∈ u, isPySpace c = false)
    (_hbr : ∀ c ∈ u, c ≠ '[' ∧ c ≠ ']')
    (_hascii : ∀ c ∈ u, c.toNat < 128) :
    normalize_url (normalize_url u) = normalize_url u := by
  have hstrip : pyStrip u = u := pyStrip_eq_self u hsp
  have hclean : removeUnsafe u = u := removeUnsafe_eq_self u hsp
  have hmain : ∃ s url1, urlsplit u = splitRest s url1
      ∧ (∀ c ∈ url1, c ∈ u)
      ∧ s.all isSchemeChar = true
      ∧ (s ≠ [] → (s.headD ' ').isAlpha = true)
      ∧ lowerStr s = s
      ∧ (s = [] → schemeSplit u = none ∧ url1 = u) := by
    cases hss : schemeSplit u with
    | none =>
      exact ⟨[], u, urlsplit_eq_splitRest_none u hclean hss, fun c hc => hc, rfl,
        fun h => absurd rfl h, rfl, fun _ => ⟨rfl, rfl⟩⟩
    | some p =>
      obtain ⟨s, r⟩ := p
      obtain ⟨hne, hall, hhead, hlowp, i, hfi, hi0, hse, hre⟩ := schemeSplit_eq_some hss
      refine ⟨s, r, urlsplit_eq_splitRest_some u s r hclean hss, ?_, hall, fun _ => hhead,
        hlowp, fun he => absurd he hne⟩
      intro c hc
      rw [hre] at hc
      exact List.drop_subset _ _ hc
  obtain ⟨s, url1, hR, hsub1, hall, hhead, hlow, hnone⟩ := hmain
  have hPu : ∀ c ∈ (splitRest s url1).path, c ∈ u :=
    fun c hc => hsub1 c (splitRest_path_subset s url1 c hc)
  have hNu : ∀ c ∈ (splitRest s url1).netloc, c ∈ u :=
    fun c hc => hsub1 c (splitRest_netloc_subset s url1 c hc)
  have hQu : ∀ c ∈ (splitRest s url1).query, c ∈ u :=
    fun c hc => hsub1 c (splitRest_query_subset s url1 c hc)
  have hsemiP : (splitRest s url1).path.contains ';' = false :=
    (contains_eq_false_iff _ _).mpr (fun x hx => hsc x (hPu x hx))
  have hCsub : ∀ c ∈ (if (splitRest s url1).path = ['/'] then (['/'] : Str)
      else rstripSlash (splitRest s url1).path), c ∈ (splitRest s url1).path := by
    intro c hc
    revert hc
    split_ifs with hp
    · intro hc
      rw [hp]
      exact hc
    · exact fun hc => mem_rstripSlash hc
  have hnu : normalize_url u = urlunsplit s (lowerStr (splitRest s url1).netloc)
      (if (splitRest s url1).path = ['/'] then ['/']
        else rstripSlash (splitRest s url1).path)
      (splitRest s url1).query [] := by
    have h0 := normalize_url_eq_of u (splitRest s url1) hstrip hR hsemiP
    rw [h0]
    rw [show lowerStr (splitRest s url1).scheme = s from by
      rw [splitRest_scheme]
      exact hlow]
  rw [hnu]
  refine normalize_second_fixed s (splitRest s url1).netloc _ (splitRest s url1).query
    hall hhead hlow (splitRest_netloc_no_stop s url1) ?_ (splitRest_query_no_h s url1)
    ?_ ?_ ?_ ?_ ?_
  · exact fun c hc => splitRest_path_no_qh s url1 c (hCsub c hc)
  · intro hNne
    rcases splitRest_netloc_path s url1 hNne with hp0 | hph
    · left
      rw [if_neg (by rw [hp0]; simp), hp0]
      rfl
    · by_cases hp : (splitRest s url1).path = ['/']
      · right
        rw [if_pos hp]
        rfl
      · rw [if_neg hp]
        by_cases hC0 : rstripSlash (splitRest s url1).path = []
        · exact Or.inl hC0
        · right
          rw [rstripSlash_headD _ _ hC0]
          exact hph
  · intro hs0 hN0 hC0 hCh
    obtain ⟨hssu, hu1⟩ := hnone hs0
    have h2 : ¬(url1.take 2 = ['/', '/']) := by
      intro h2
      rcases splitRest_path_head s url1 h2 with hp0 | hph
      · apply hC0
        rw [if_neg (by rw [hp0]; simp), hp0]
        rfl
      · apply hCh
        by_cases hp : (splitRest s url1).path = ['/']
        · rw [if_pos hp]
          rfl
        · rw [if_neg hp]
          rw [if_neg hp] at hC0
          rw [rstripSlash_headD _ _ hC0]
          exact hph
    have hpre : (if (splitRest s url1).path = ['/'] then (['/'] : Str)
        else rstripSlash (splitRest s url1).path) <+: u := by
      have hp1 : (splitRest s url1).path <+: url1 :=
        splitRest_path_isPre_of_no_netloc s url1 h2
      have hp1' : (splitRest s url1).path <+: u := by
        rw [← hu1]
        exact hp1
      refine List.IsPrefix.trans ?_ hp1'
      by_cases hp : (splitRest s url1).path = ['/']
      · rw [if_pos hp, hp]
      · rw [if_neg hp]
        exact rstripSlash_isPre _
    exact schemeSplit_prefix_none _ _ u hpre hssu
      (by rcases qpart_cases (splitRest s url1).query with h | h
          · exact Or.inl h
          · exact Or.inr ⟨_, h⟩)
  · exact fun c hc => hsc c (hPu c (hCsub c hc))
  · by_cases hp : (splitRest s url1).path = ['/']
    · rw [if_pos hp, if_pos rfl]
    · rw [if_neg hp]
      rw [if_neg (rstripSlash_ne_slash _)]
      exact rstripSlash_idem _
  · refine ⟨?_, ?_, ?_, ?_⟩
    · intro c hc
      exact schemeChar_not_space (List.all_eq_true.mp hall c hc)
    · intro c hc
      exact hsp c (hNu c hc)
    · intro c hc
      exact hsp c (hPu c (hCsub c hc))
    · intro c hc
      exact hsp c (hQu c hc)

/-- Witness for C9 (amended): a concrete clean URL on which the idempotence
theorem applies; the hypotheses are discharged by computation. -/
theorem normalize_url_idempotent_on_clean_witness :
    normalize_url (normalize_url "https://Example.com/a/b/".toList)
      = normalize_url "https://Example.com/a/b/".toList :=
  normalize_url_idempotent_on_clean "https://Example.com/a/b/".toList
    (by decide) (by decide) (by decide) (by decide)

end SearchEngine
